import Mathlib

/-!
Verification development for the skills-manager repository: a shallow
embedding of the skill registry, the manifest parser, the per-target
enablement adapters and the install copy phase, together with theorems
settling the specification claims.

Modelling conventions.

Filesystem paths are absolute, normalized POSIX paths represented as the
list of their segments (so the string path /a/b/c is the list
["a", "b", "c"] and the filesystem root / is []).  The Node `path`
functions on such paths are embedded on segment lists: `path.join` with a
single name appends a segment, `path.dirname` drops the last segment,
`path.basename` is the last segment (and "" at the filesystem root, as in
Node), `path.relative` removes the common prefix and prepends ".."
segments, `path.resolve` on an absolute normalized path is the identity.

A file store is the finite list of its files, each a path paired with its
text content; directories exist implicitly as proper prefixes of file
paths.  `fs.access` (pathExists) succeeds on a path that is a prefix of
some file's path; `fs.readFile` looks the exact path up.  The recursive
filesystem helpers of the source are embedded by their net effect on the
file store: `fs.rm(p, {recursive, force})` drops every file under p,
`fs.rename(src, dst)` re-prefixes every file under src, the recursive
copyDir walk duplicates every file under the source at the destination
(overwriting files at colliding paths, as fs.copyFile does), and
`fs.mkdir(p, {recursive})` is a no-op on the store since directories are
implicit.

Strings are handled with Lean's String; the JavaScript string operations
used by the source (trim, trimStart, toLowerCase, startsWith, split on
/\r?\n/) are embedded for ASCII text, which is what manifests, manifest
keys and path segments use.

The YAML library call of the parser and the TOML serializer of the codex
target are external libraries, not code of this repository; they enter the
embedding as oracle parameters (`yaml : String -> Option YamlMap`, with
none standing for a parse failure or thrown error, and
`stringify : CodexConfig -> String`).  Every theorem quantifies over these
oracles or fixes a concrete one.
-/

namespace SkillsMgr

/-! ## Paths -/

/-- Node path.dirname on an absolute normalized segment path. -/
def dirname (p : List String) : List String := p.dropLast

/-- Node path.basename: the last segment, "" for the filesystem root
(Node's `path.basename("/")` is `""`). -/
def basename (p : List String) : String := p.getLast?.getD ""

/-- Node path.relative between absolute normalized segment paths: strip the
common prefix, then one ".." per remaining segment of the first argument
followed by the remaining segments of the second. -/
def relSegs : List String → List String → List String
  | [], t => t
  | f, [] => List.replicate f.length ".."
  | a :: f, b :: t =>
    if a == b then relSegs f t else List.replicate (f.length + 1) ".." ++ (b :: t)

/-- isUnderRoot / isPathUnderRoot from registry.ts, claude.ts and vscode.ts:
the relative path from the root is nonempty, does not start with "..", and
is not absolute (the relative path between two absolute paths never is). -/
def isUnderRoot (skillPath root : List String) : Bool :=
  let rel := relSegs root skillPath
  !rel.isEmpty && rel.head? != some ".."

/-! ## File store -/

/-- A file store: the list of files, each an absolute segment path with its
text content. -/
structure FileSys where
  files : List (List String × String)
deriving DecidableEq

/-- pathExists from the source (fs.access wrapped in try/catch): the path
is a file or a directory, i.e. a prefix of some file's path. -/
def pathExists (fs : FileSys) (p : List String) : Bool :=
  fs.files.any (fun e => p.isPrefixOf e.1)

/-- fs.readFile at an exact file path; "" when absent (the registry only
reads paths it has just discovered as existing). -/
def readFileD (fs : FileSys) (p : List String) : String :=
  ((fs.files.find? (fun e => e.1 == p)).map (fun e => e.2)).getD ""

/-- Net effect of `fs.rm(p, { recursive: true, force: true })`: every file
under p (p itself included) is removed. -/
def rmRec (fs : FileSys) (p : List String) : FileSys :=
  ⟨fs.files.filter (fun e => !p.isPrefixOf e.1)⟩

/-- Net effect of `fs.rename(src, dst)` on a directory tree: every file
under src reappears under dst. -/
def renameTree (fs : FileSys) (src dst : List String) : FileSys :=
  ⟨fs.files.map (fun e =>
    if src.isPrefixOf e.1 then (dst ++ e.1.drop src.length, e.2) else e)⟩

/-- moveSkill from claude.ts / vscode.ts: ensure the destination's parent
directory (a no-op on the file store), best-effort recursive removal of the
destination (failures swallowed), then rename. -/
def moveSkill (fs : FileSys) (fromPath toPath : List String) : FileSys :=
  renameTree (rmRec fs toPath) fromPath toPath

/-- Net effect of the recursive copyDir walk of skillsService: every file
under source is duplicated at the corresponding path under destination; a
file already present at a copied path is overwritten (fs.copyFile). -/
def copyDir (fs : FileSys) (source destination : List String) : FileSys :=
  let copied := fs.files.filterMap (fun e =>
    if source.isPrefixOf e.1 then some (destination ++ e.1.drop source.length, e.2) else none)
  ⟨fs.files.filter (fun e => !(copied.any (fun c => c.1 == e.1))) ++ copied⟩

/-- The files lying under a path (used to state subtree properties). -/
def filesUnder (fs : FileSys) (p : List String) : List (List String × String) :=
  fs.files.filter (fun e => p.isPrefixOf e.1)

/-! ## JavaScript string helpers -/

/-- JavaScript String.prototype.trimStart (ASCII whitespace). -/
def trimStartStr (s : String) : String :=
  String.mk (s.toList.dropWhile Char.isWhitespace)

/-- JavaScript String.prototype.trim (ASCII whitespace, both ends). -/
def trimStr (s : String) : String :=
  String.mk (((s.toList.dropWhile Char.isWhitespace).reverse.dropWhile
    Char.isWhitespace).reverse)

/-- JavaScript String.prototype.toLowerCase on ASCII text. -/
def toLowerStr (s : String) : String := String.mk (s.toList.map Char.toLower)

/-- JavaScript String.prototype.startsWith. -/
def startsWithStr (s pre : String) : Bool := pre.toList.isPrefixOf s.toList

/-- Strict code-point lexicographic order on character lists (the order
behind JavaScript's `<` on strings and Lean's String order). -/
def charListLt : List Char → List Char → Bool
  | _, [] => false
  | [], _ :: _ => true
  | a :: as, b :: bs =>
    decide (a.toNat < b.toNat) || (a.toNat == b.toNat && charListLt as bs)

/-- Strict code-point order on strings. -/
def strLt (a b : String) : Bool := charListLt a.toList b.toList

/-- content.split(/\r?\n/) on the character list: both \n and \r\n
separate lines; a lone \r stays inside its line. -/
def splitLinesList : List Char → List (List Char)
  | [] => [[]]
  | '\r' :: '\n' :: rest => [] :: splitLinesList rest
  | '\n' :: rest => [] :: splitLinesList rest
  | c :: rest =>
    match splitLinesList rest with
    | [] => [[c]]
    | l :: ls => (c :: l) :: ls

/-- content.split(/\r?\n/). -/
def splitLines (s : String) : List String :=
  (splitLinesList s.toList).map (fun l => String.mk l)

/-! ## Manifest parser (parser.ts) -/

/-- The value of one frontmatter key as the YAML library returns it:
either a string (the only shape the parser consumes) or anything else. -/
inductive YamlValue where
  | str (s : String)
  | other
deriving DecidableEq

/-- The parsed frontmatter object: an association of keys to values, later
assignments shadowing earlier ones at lookup. -/
abbrev YamlMap := List (String × YamlValue)

/-- Property lookup on the frontmatter object. -/
def lookupKey (m : YamlMap) (k : String) : Option YamlValue :=
  (m.find? (fun e => e.1 == k)).map (fun e => e.2)

/-- Assignment `obj[key] = value` on a string object: replace an existing
binding in place, else append. -/
def insertKey (m : List (String × String)) (k v : String) : List (String × String) :=
  if m.any (fun e => e.1 == k) then
    m.map (fun e => if e.1 == k then (k, v) else e)
  else m ++ [(k, v)]

/-- The character class [A-Za-z0-9_-] of the fallback line regex. -/
def isKeyChar (c : Char) : Bool := c.isAlphanum || c == '_' || c == '-'

/-- value.replace(/^['"]|['"]$/g, ""): drop one leading and one trailing
quote character when present. -/
def stripQuotes (s : String) : String :=
  let cs := s.toList
  let cs1 := match cs with
    | c :: rest => if c == '\'' || c == '"' then rest else cs
    | [] => []
  let cs2 := match cs1.getLast? with
    | some c => if c == '\'' || c == '"' then cs1.dropLast else cs1
    | none => cs1
  String.mk cs2

/-- line.match(/^\s*([A-Za-z0-9_-]+)\s*:\s*(.+)\s*$/) followed by
match[2].trim(): a line matches when, after optional whitespace, it has a
nonempty run of key characters, optional whitespace, a colon, and at least
one further character; the captured value, after the final trim, is the
remainder after the colon trimmed of whitespace. -/
def matchKVLine (line : String) : Option (String × String) :=
  let cs := line.toList.dropWhile Char.isWhitespace
  let key := cs.takeWhile isKeyChar
  if key.isEmpty then none
  else
    let rest1 := (cs.drop key.length).dropWhile Char.isWhitespace
    match rest1 with
    | ':' :: rest2 =>
      if rest2.isEmpty then none
      else some (String.mk key, trimStr (String.mk rest2))
    | _ => none

/-- The permissive fallback scan of the frontmatter block: for each
matching "key: value" line, record the lower-cased key with the trimmed,
quote-stripped value. -/
def simpleScan (raw : String) : List (String × String) :=
  (splitLines raw).foldl
    (fun m line =>
      match matchKVLine line with
      | none => m
      | some kv => insertKey m (toLowerStr kv.1) (stripQuotes kv.2))
    []

structure ParsedSkillFile where
  name : String
  description : String
  body : String
  fullText : String
deriving DecidableEq

def FRONTMATTER_DELIM : String := "---"

/-- Does the content, after trimStart, begin with the frontmatter
delimiter? -/
def hasFrontmatterStart (content : String) : Bool :=
  startsWithStr (trimStartStr content) FRONTMATTER_DELIM

/-- The index of the closing delimiter line: the least i >= 1 whose line
trims to exactly "---". -/
def closeDelimIndex (lines : List String) : Option Nat :=
  (List.range lines.length).find? (fun i =>
    decide (1 ≤ i) && (trimStr (lines.getD i "") == FRONTMATTER_DELIM))

/-- parseSkillFile from parser.ts, with the file content passed in (the
source reads it from disk first) and the YAML library as an oracle, none
standing for a parse failure or a document with errors.  The function is
total: every branch, the syntactically broken ones included, produces a
record. -/
def parseSkillFile (yaml : String → Option YamlMap)
    (skillPath : List String) (content : String) : ParsedSkillFile :=
  let fallbackName := basename (dirname skillPath)
  if !hasFrontmatterStart content then
    { name := fallbackName, description := "", body := content, fullText := content }
  else
    let lines := splitLines content
    match closeDelimIndex lines with
    | none =>
      { name := fallbackName, description := "", body := content, fullText := content }
    | some endIndex =>
      let frontmatterRaw := String.intercalate "\n" ((lines.take endIndex).drop 1)
      let body := String.intercalate "\n" (lines.drop (endIndex + 1))
      let frontmatter : YamlMap :=
        match yaml frontmatterRaw with
        | some m => m
        | none => (simpleScan frontmatterRaw).map (fun e => (e.1, YamlValue.str e.2))
      let name :=
        match lookupKey frontmatter "name" with
        | some (YamlValue.str s) => if trimStr s != "" then trimStr s else fallbackName
        | _ => fallbackName
      let description :=
        match lookupKey frontmatter "description" with
        | some (YamlValue.str s) => trimStr s
        | _ => ""
      { name := name, description := description, body := body, fullText := content }

/-- estimateTokens from parser.ts: 0 for whitespace-only text, otherwise
the ceiling of the trimmed length over 4. -/
def estimateTokens (text : String) : Nat :=
  let normalized := trimStr text
  if normalized.isEmpty then 0 else (normalized.length + 3) / 4

structure TokenEstimate where
  metadata : Nat
  full : Nat
deriving DecidableEq

/-- estimateSkillTokens from parser.ts: the metadata estimate comes from
name and description, newline-joined with empty strings dropped; the full
estimate from the whole raw text. -/
def estimateSkillTokens (parsed : ParsedSkillFile) : TokenEstimate :=
  let metaText :=
    String.intercalate "\n" ([parsed.name, parsed.description].filter (fun s => !s.isEmpty))
  { metadata := estimateTokens metaText, full := estimateTokens parsed.fullText }

structure SkillRecord where
  id : List String
  name : String
  description : String
  path : List String
  sourceRoots : List (List String)
  tokens : TokenEstimate
deriving DecidableEq

/-- loadSkillRecord from parser.ts: parse the manifest at the given file
path and package it as a record with empty sourceRoots (the registry fills
them in). -/
def loadSkillRecord (yaml : String → Option YamlMap) (fs : FileSys)
    (skillFilePath : List String) : SkillRecord :=
  let parsed := parseSkillFile yaml skillFilePath (readFileD fs skillFilePath)
  { id := skillFilePath
    name := parsed.name
    description := parsed.description
    path := dirname skillFilePath
    sourceRoots := []
    tokens := estimateSkillTokens parsed }

/-! ## The sort comparator of listSkills

`entries.sort((a, b) => a.name.localeCompare(b.name))` uses the JavaScript
runtime's default-locale collation.  `localeCompare` below models that
collation for ASCII text (the root collation an unadorned Node build
uses): the primary comparison is case-insensitive code-point order on the
lower-cased strings; two strings equal ignoring case are ordered at the
first position whose case differs, lower case first ("a" before "A",
"aB" before "Ab"), matching the root tailoring's tertiary weights.  This
is the one definition modelled from the platform rather than translated
from repository code. -/

/-- The case profile of a string: true at upper-case (non-lower)
positions.  Strings equal ignoring case have equal length, so comparing
profiles lexicographically picks the first position whose case differs. -/
def caseMask (s : String) : List Bool := s.toList.map (fun c => !c.isLower)

/-- Lexicographic strict order on case profiles, false-before-true
(lower case before upper case). -/
def maskLt : List Bool → List Bool → Bool
  | [], [] => false
  | [], _ :: _ => true
  | _ :: _, [] => false
  | a :: as, b :: bs => (!a && b) || (a == b && maskLt as bs)

/-- Model of String.prototype.localeCompare under the default (root)
locale, restricted to ASCII text; see the section comment. -/
def localeCompare (a b : String) : Int :=
  if strLt (toLowerStr a) (toLowerStr b) then -1
  else if strLt (toLowerStr b) (toLowerStr a) then 1
  else if maskLt (caseMask a) (caseMask b) then -1
  else if maskLt (caseMask b) (caseMask a) then 1
  else 0

/-! ## Stable sorting

Array.prototype.sort is a stable comparator sort; a stable sort's output
is uniquely determined by the comparator and the input order, so any
stable algorithm embeds it.  The insertion sort below processes elements
left to right and inserts each behind every already-placed element the
comparator does not order after it, which is stable and structurally
recursive (hence evaluates by rfl in witnesses). -/

/-- Insert x behind every y with le y x (so behind its equals: stability). -/
def insertStable (le : α → α → Bool) (x : α) : List α → List α
  | [] => [x]
  | y :: ys => if le y x then y :: insertStable le x ys else x :: y :: ys

/-- Stable sort by a boolean comparator. -/
def stableSort (le : α → α → Bool) (l : List α) : List α :=
  l.foldl (fun acc x => insertStable le x acc) []

/-- JavaScript Set insertion order: keep the first occurrence of each
element. -/
def dedupKeepFirst [BEq α] : List α → List α → List α
  | [], _ => []
  | a :: rest, seen =>
    if seen.contains a then dedupKeepFirst rest seen
    else a :: dedupKeepFirst rest (a :: seen)

/-! ## Targets and registry (registry.ts) -/

inductive EnablementStatus where
  | enabled | disabled | notInstalled | unsupported
deriving DecidableEq

structure TargetState where
  targetId : String
  targetLabel : String
  status : EnablementStatus
  managed : Bool
  path : Option (List String) := none
deriving DecidableEq

/-- A constructed target adapter as the registry consumes it: the
descriptor fields, the root list getRoots returns, the isManagedRoot test,
and the enablement query as a function of the physical path the registry
passes (every adapter of the source reads only the record's path). -/
structure TargetModel where
  id : String
  label : String
  priority : Int
  supportsEnablement : Bool
  roots : List (List String)
  managed : List String → Bool
  getEnablement : List String → EnablementStatus

structure SkillEntry where
  id : List String
  name : String
  description : String
  path : List String
  sourceRoots : List (List String)
  tokens : TokenEstimate
  targets : List TargetState
deriving DecidableEq

structure SkillEntryCandidate where
  record : SkillRecord
  entries : List (List String × List String)

/-- The immediate child names of a directory in the file store, in
first-occurrence order over the file list (the model's readdir order). -/
def childNames (fs : FileSys) (d : List String) : List String :=
  dedupKeepFirst
    (fs.files.filterMap (fun e =>
      if d.isPrefixOf e.1 then (e.1.drop d.length).head? else none))
    []

/-- Is the child a directory, i.e. does some file lie strictly below it? -/
def isDirEntry (fs : FileSys) (d : List String) (s : String) : Bool :=
  fs.files.any (fun e => (d ++ [s]).isPrefixOf e.1 && decide (d.length + 1 < e.1.length))

/-- fs.readdir(d, { withFileTypes: true }) restricted to the directory
entries, as the registry's scan consumes it. -/
def readdirDirs (fs : FileSys) (d : List String) : List String :=
  (childNames fs d).filter (isDirEntry fs d)

/-- collectSkillFilesFromRoot from registry.ts: a missing root yields
nothing; a root with a direct SKILL.md is itself a single skill; otherwise
every immediate subdirectory is scanned, a ".disabled" subdirectory
additionally contributing its own immediate subdirectories, and each
scanned directory with a SKILL.md yields that file. -/
def collectSkillFilesFromRoot (fs : FileSys) (root : List String) : List (List String) :=
  if !pathExists fs root then []
  else
    let directSkill := root ++ ["SKILL.md"]
    if pathExists fs directSkill then [directSkill]
    else
      let scanDirs := (readdirDirs fs root).flatMap (fun name =>
        let d := root ++ [name]
        if name == ".disabled" then
          d :: (readdirDirs fs d).map (fun n2 => d ++ [n2])
        else [d])
      scanDirs.filterMap (fun dir =>
        let f := dir ++ ["SKILL.md"]
        if pathExists fs f then some f else none)

/-- The scan roots of one listSkills call: the roots of every target (the
constructor sorts targets by ascending priority, refreshTargets collects
their roots in that order) unioned, Set-style, with the configured extra
roots. -/
def scanRoots (targets : List TargetModel) (extraRoots : List (List String)) :
    List (List String) :=
  dedupKeepFirst
    ((stableSort (fun a b => decide (a.priority ≤ b.priority)) targets).flatMap
        (fun t => t.roots)
      ++ extraRoots)
    []

/-- One step of the skill map construction (registry.ts lines 105-117):
key the freshly parsed record by its lower-cased name; a new key appends a
candidate whose sourceRoots and entries hold this occurrence, an existing
key has the occurrence pushed onto its candidate. -/
def addOccurrence (m : List (String × SkillEntryCandidate)) (root : List String)
    (rec : SkillRecord) (skillPath : List String) :
    List (String × SkillEntryCandidate) :=
  let key := toLowerStr rec.name
  if m.any (fun e => e.1 == key) then
    m.map (fun e =>
      if e.1 == key then
        (e.1,
          { record := { e.2.record with sourceRoots := e.2.record.sourceRoots ++ [root] }
            entries := e.2.entries ++ [(skillPath, root)] })
      else e)
  else
    m ++ [(key, { record := { rec with sourceRoots := [root] }
                  entries := [(skillPath, root)] })]

/-- The skill map of listSkills: for each scan root in order, for each
discovered manifest, parse it and add the occurrence under its lower-cased
name. -/
def buildSkillMap (yaml : String → Option YamlMap) (fs : FileSys)
    (roots : List (List String)) : List (String × SkillEntryCandidate) :=
  roots.foldl
    (fun m root =>
      (collectSkillFilesFromRoot fs root).foldl
        (fun m filePath =>
          addOccurrence m root (loadSkillRecord yaml fs filePath) (dirname filePath))
        m)
    []

/-- The discovery occurrences of one listSkills call, flattened in scan
order: (root, manifest file) for each root in order and each manifest
found under it (the double loop of buildSkillMap walks exactly this
list). -/
def skillOccs (fs : FileSys) (roots : List (List String)) :
    List (List String × List String) :=
  roots.flatMap (fun r => (collectSkillFilesFromRoot fs r).map (fun f => (r, f)))

/-- The merge key of one occurrence: the lower-cased parsed name. -/
def occKey (yaml : String → Option YamlMap) (fs : FileSys)
    (rf : List String × List String) : String :=
  toLowerStr (loadSkillRecord yaml fs rf.2).name

/-- The per-target state of one merged candidate (registry.ts lines
124-155): find the candidate's physical copy lying under (or equal to) one
of the target's roots; none means not-installed, a target without
enablement support reports unsupported, otherwise the adapter's
getEnablement is asked about that specific copy. -/
def targetStateFor (t : TargetModel) (c : SkillEntryCandidate) : TargetState :=
  let managed := t.roots.any t.managed
  match c.entries.find? (fun entry =>
      t.roots.any (fun root => isUnderRoot entry.1 root || entry.1 == root)) with
  | none =>
    { targetId := t.id, targetLabel := t.label, status := .notInstalled, managed := managed }
  | some entry =>
    if !t.supportsEnablement then
      { targetId := t.id, targetLabel := t.label, status := .unsupported,
        managed := managed, path := some entry.1 }
    else
      { targetId := t.id, targetLabel := t.label, status := t.getEnablement entry.1,
        managed := managed, path := some entry.1 }

/-- The boolean comparator the final sort uses. -/
def entryLe (a b : SkillEntry) : Bool := decide (localeCompare a.name b.name ≤ 0)

/-- SkillRegistry.listSkills: refresh the target roots, union them with
the extra roots, discover and parse every manifest, merge occurrences by
lower-cased name, decorate each merged candidate with its per-target
states (targets in priority order), and sort by name with localeCompare. -/
def listSkills (yaml : String → Option YamlMap) (fs : FileSys)
    (targets : List TargetModel) (extraRoots : List (List String)) : List SkillEntry :=
  let sortedTargets := stableSort (fun a b => decide (a.priority ≤ b.priority)) targets
  let m := buildSkillMap yaml fs (scanRoots targets extraRoots)
  let entries := m.map (fun kv =>
    { id := kv.2.record.id
      name := kv.2.record.name
      description := kv.2.record.description
      path := kv.2.record.path
      sourceRoots := kv.2.record.sourceRoots
      tokens := kv.2.record.tokens
      targets := sortedTargets.map (fun t => targetStateFor t kv.2) })
  stableSort entryLe entries

/-- SkillRegistry.toggleSkillTarget (registry.ts lines 162-178): reject an
unknown target, a target without enablement support, and a skill whose
state for the target is missing or not-installed; otherwise flip the
status and delegate to the matched adapter's setEnablement with the
physical path known for that target.  The result carries the matched
target and the delegated call (path, requested flag). -/
def registryToggleSkillTarget (targets : List TargetModel) (skill : SkillEntry)
    (targetId : String) : Except String (TargetModel × List String × Bool) :=
  match targets.find? (fun t => t.id == targetId) with
  | none => .error ("Unknown target " ++ targetId)
  | some target =>
    if !target.supportsEnablement then
      .error (target.label ++ " does not support enablement yet.")
    else
      match skill.targets.find? (fun s => s.targetId == targetId) with
      | none => .error (target.label ++ " does not have this skill installed.")
      | some current =>
        if current.status == .notInstalled then
          .error (target.label ++ " does not have this skill installed.")
        else
          let nextEnabled := current.status != .enabled
          .ok (target, current.path.getD skill.path, nextEnabled)

/-- SkillsService.toggleSkillTarget of the later service (part_002 lines
344-370): re-list the skills, look the skill up by id; when its state for
the target is not-installed, find the target, pick its managed root (else
its first root), copy the skill's directory to that root when nothing is
at the destination yet, and enable the copy; otherwise delegate to the
registry toggle and apply the resulting adapter call.  setEnb is the
adapter dispatch (target, store, physical path, flag). -/
def svcToggleSkillTarget (yaml : String → Option YamlMap)
    (setEnb : TargetModel → FileSys → List String → Bool → Except String FileSys)
    (targets : List TargetModel) (extraRoots : List (List String))
    (fs : FileSys) (skillId : List String) (targetId : String) :
    Except String FileSys :=
  let skills := listSkills yaml fs targets extraRoots
  match skills.find? (fun s => s.id == skillId) with
  | none => .error "Skill not found"
  | some skill =>
    let targetState := skill.targets.find? (fun s => s.targetId == targetId)
    if targetState.map (fun s => s.status) = some .notInstalled then
      match targets.find? (fun t => t.id == targetId) with
      | none => .error "Target not found"
      | some target =>
        match (target.roots.find? target.managed).orElse (fun _ => target.roots.head?) with
        | none => .error "No managed root available for this target."
        | some managedRoot =>
          let destination := managedRoot ++ [basename skill.path]
          let fs1 := if !pathExists fs destination then copyDir fs skill.path destination
                     else fs
          setEnb target fs1 destination true
    else
      match registryToggleSkillTarget targets skill targetId with
      | .error e => .error e
      | .ok act => setEnb act.1 fs act.2.1 act.2.2

/-! ## The Convention-A (disabled-subfolder) adapter (claude.ts) -/

def getDisabledRoot (root : List String) : List String := root ++ [".disabled"]

/-- getEnablement of the Convention-A adapter: disabled under a root's
.disabled child, enabled under a root, not-installed otherwise. -/
def claudeGetEnablement (roots : List (List String)) (skillPath : List String) :
    EnablementStatus :=
  match roots.find? (fun c => isUnderRoot skillPath c) with
  | none => .notInstalled
  | some root =>
    if isUnderRoot skillPath (getDisabledRoot root) then .disabled else .enabled

/-- setEnablement of the Convention-A adapter (claude.ts lines 60-83, and
identically vscode.ts without a copilot root): find the root the skill's
path lies under (directly or under its .disabled child), fail when there
is none, then move the directory named after the skill between the root
and its .disabled child — only when the move's source exists. -/
def claudeSetEnablement (roots : List (List String)) (fs : FileSys)
    (skillPath : List String) (enabled : Bool) : Except String FileSys :=
  match roots.find? (fun c =>
      isUnderRoot skillPath c || isUnderRoot skillPath (getDisabledRoot c)) with
  | none => .error "Skill is not installed in the Claude Code root."
  | some root =>
    let skillName := basename skillPath
    let disabledRoot := getDisabledRoot root
    if enabled then
      let fromPath := disabledRoot ++ [skillName]
      let toPath := root ++ [skillName]
      if pathExists fs fromPath then .ok (moveSkill fs fromPath toPath) else .ok fs
    else
      let fromPath := root ++ [skillName]
      let toPath := disabledRoot ++ [skillName]
      if pathExists fs fromPath then .ok (moveSkill fs fromPath toPath) else .ok fs

/-! ## The install copy phase (skillsService, part_002 lines 415-432) -/

/-- A discovered skill candidate of the install scan: its checkout
directory and its parsed name. -/
structure SkillCandidate where
  dir : List String
  name : String
deriving DecidableEq

/-- The string form of a segment path, for the error messages the source
interpolates paths into. -/
def pathToString (p : List String) : String := "/" ++ String.intercalate "/" p

/-- Candidate selection: apply the optional case-insensitive skillName
filter; when it matches nothing, fall back to all discovered candidates. -/
def selectCandidates (skillName : Option String) (skillDirs : List SkillCandidate) :
    List SkillCandidate :=
  let filtered := match skillName with
    | some n => skillDirs.filter (fun c => toLowerStr c.name == toLowerStr n)
    | none => skillDirs
  if filtered.length > 0 then filtered else skillDirs

/-- The copy loop: each candidate in turn is copied to the target root
under its folder's base name, unless something already exists at that
destination, in which case the loop stops with the error message and the
store as mutated so far (no rollback of earlier copies). -/
def installCopyLoop (targetRoot : List String) :
    FileSys → List SkillCandidate → Option String × FileSys
  | fs, [] => (none, fs)
  | fs, c :: rest =>
    let destination := targetRoot ++ [basename c.dir]
    if pathExists fs destination then
      (some ("Skill already exists at " ++ pathToString destination), fs)
    else
      installCopyLoop targetRoot (copyDir fs c.dir destination) rest

inductive InstallOutcome where
  | ok (message : String)
  | error (message : String)
deriving DecidableEq

/-- The copy phase of installSkillWithProgress: no candidates is an error,
otherwise select and copy.  (The clone that produces skillDirs, the
progress events, the vscode copilot duplication and the temp-checkout
cleanup surround this phase and do not touch the destination root.) -/
def installSkillCopyPhase (targetRoot : List String) (fs : FileSys)
    (skillName : Option String) (skillDirs : List SkillCandidate) :
    InstallOutcome × FileSys :=
  if skillDirs.isEmpty then
    (.error "No SKILL.md files found in the repository.", fs)
  else
    let toInstall := selectCandidates skillName skillDirs
    match installCopyLoop targetRoot fs toInstall with
    | (some msg, fs') => (.error msg, fs')
    | (none, fs') =>
      (.ok ("Installed " ++ toString toInstall.length ++ " skill(s) into "
          ++ pathToString targetRoot ++ "."), fs')

/-- The copies an initial span of candidates performs (used to state what
the store holds when the loop stops). -/
def applyCopies (targetRoot : List String) (fs : FileSys)
    (cs : List SkillCandidate) : FileSys :=
  cs.foldl (fun a c => copyDir a c.dir (targetRoot ++ [basename c.dir])) fs

/-! ## The Convention-C (config-file) adapter (codex target of App.tsx) -/

/-- One {path, enabled} record of the codex configuration file; both
fields are optional in the parsed TOML. -/
structure CodexConfigEntry where
  path : Option (List String)
  enabled : Option Bool
deriving DecidableEq

/-- The `skills` section of the configuration. -/
structure CodexSkillsSection where
  config : Option (List CodexConfigEntry)
  sectionRest : List (String × String) := []
deriving DecidableEq

/-- The parsed configuration; rest carries whatever other keys the TOML
file holds, which the mutation preserves. -/
structure CodexConfig where
  skills : Option CodexSkillsSection
  rest : List (String × String) := []
deriving DecidableEq

/-- The filesystem operations the codex adapter issues, in order. -/
inductive FsOp where
  | mkdirRec (p : List String)
  | writeFile (p : List String) (data : String)
  | renameFile (src dst : List String)
deriving DecidableEq

def FsOp.isRename : FsOp → Bool
  | .renameFile _ _ => true
  | _ => false

def codexConfigDir (home : List String) : List String := home ++ [".codex"]

def codexConfigPath (home : List String) : List String :=
  codexConfigDir home ++ ["config.toml"]

/-- normalizeSkillPath = path.resolve, the identity on the absolute
normalized paths of this model. -/
def normalizeSkillPath (p : List String) : List String := p

/-- writeConfig of the codex target: create the config directory, then
write the serialized configuration to the config path — directly, with a
single fs.writeFile.  The operations are returned in issue order. -/
def writeConfig (stringify : CodexConfig → String) (home : List String)
    (config : CodexConfig) : List FsOp :=
  [FsOp.mkdirRec (codexConfigDir home),
   FsOp.writeFile (codexConfigPath home) (stringify config)]

/-- setEnablement of the codex target: read the entry list, drop every
entry for this skill's normalized path, append a {path, enabled: false}
entry when disabling, store the list back and rewrite the configuration
file.  Returns the new configuration and the filesystem operations
issued. -/
def codexSetEnablement (stringify : CodexConfig → String) (home : List String)
    (config : CodexConfig) (skillPath : List String) (enabled : Bool) :
    CodexConfig × List FsOp :=
  let entries := ((config.skills.map (fun s => s.config)).join).getD []
  let normalized := normalizeSkillPath skillPath
  let filtered := entries.filter (fun e =>
    e.path.isNone || decide (e.path.map normalizeSkillPath ≠ some normalized))
  let filtered' := if !enabled
    then filtered ++ [{ path := some skillPath, enabled := some false }]
    else filtered
  let skillsSection := (config.skills.getD { config := none }).sectionRest
  let newConfig : CodexConfig :=
    { skills := some { config := some filtered', sectionRest := skillsSection }
      rest := config.rest }
  (newConfig, writeConfig stringify home newConfig)

/-! ## Concrete scenario data used by counterexamples and witnesses -/

/-- A YAML oracle standing for a library that rejects every block (every
rejection lands in the parser's permissive fallback scan). -/
def yamlNoneOracle : String → Option YamlMap := fun _ => none

/-- The Convention-A target's root list of the scenarios: a single managed
home root. -/
def claudeRootsEx : List (List String) := [["home", ".claude", "skills"]]

/-- A constructed Convention-A target over claudeRootsEx, as
createClaudeTarget builds it. -/
def claudeTargetEx : TargetModel :=
  { id := "claude"
    label := "Claude Code"
    priority := 9
    supportsEnablement := true
    roots := claudeRootsEx
    managed := fun r => r == ["home", ".claude", "skills"]
    getEnablement := claudeGetEnablement claudeRootsEx }

/-- Adapter dispatch: setEnablement of a disabled-subfolder target over
its roots. -/
def claudeDispatchEx : TargetModel → FileSys → List String → Bool → Except String FileSys :=
  fun t fs p e => claudeSetEnablement t.roots fs p e

/-- A store with one skill in an extra root only: not installed for the
Convention-A target. -/
def fsNotInstalledEx : FileSys :=
  ⟨[(["extra", "skillA", "SKILL.md"], "---\nname: SkillA\n---\nZ")]⟩

/-- The store after the service toggle of the scenario: the skill has been
copied into the Convention-A managed root. -/
def fsAfterToggleEx : FileSys :=
  ⟨[(["extra", "skillA", "SKILL.md"], "---\nname: SkillA\n---\nZ"),
    (["home", ".claude", "skills", "skillA", "SKILL.md"], "---\nname: SkillA\n---\nZ")]⟩

/-- A manifest with no frontmatter sitting directly in the filesystem
root, so the parent directory's base name is empty. -/
def fsRootManifestEx : FileSys := ⟨[(["SKILL.md"], "plain body")]⟩

/-- Two skills named alpha and Beta under one root: code-point order puts
"Beta" (B = U+0042) before "alpha" (a = U+0061), the default locale
collation the reverse. -/
def fsSortCex : FileSys :=
  ⟨[(["r1", "a", "SKILL.md"], "---\nname: alpha\n---\n"),
    (["r1", "b", "SKILL.md"], "---\nname: Beta\n---\n")]⟩

/-- Two roots each holding a skill folder whose manifest names it Foo. -/
def fsTwoRootsEx : FileSys :=
  ⟨[(["r1", "foo", "SKILL.md"], "---\nname: Foo\n---\nA"),
    (["r2", "foo", "SKILL.md"], "---\nname: Foo\n---\nB")]⟩

/-- The single entry listSkills reports for fsNotInstalledEx with the
Convention-A target and the extra root: not installed for that target. -/
def skillEntryC2Ex : SkillEntry :=
  { id := ["extra", "skillA", "SKILL.md"]
    name := "SkillA"
    description := ""
    path := ["extra", "skillA"]
    sourceRoots := [["extra"]]
    tokens := { metadata := 2, full := 6 }
    targets := [{ targetId := "claude", targetLabel := "Claude Code",
                  status := .notInstalled, managed := true, path := none }] }

/-! ## Theorems -/

/-- C7 (counterexample): every operation a codex enablement mutation
issues is listed here for a concrete mutation — a recursive mkdir of the
config directory followed by one direct write of the serialized
configuration to the config path.  No temp-file write and no rename occur,
refuting the claimed temp-file-then-atomic-rename pattern. -/
theorem writeConfig_no_rename_cex :
    (codexSetEnablement (fun _ => "serialized") ["home"] { skills := none }
        ["home", ".codex", "skills", "a"] false).2
      = [FsOp.mkdirRec ["home", ".codex"],
         FsOp.writeFile ["home", ".codex", "config.toml"] "serialized"]
    ∧ ∀ op ∈ (codexSetEnablement (fun _ => "serialized") ["home"] { skills := none }
        ["home", ".codex", "skills", "a"] false).2, op.isRename = false := by
  exact ⟨rfl, by decide⟩

/-- C7 (amended): every mutation of the config-file target's enablement
state rewrites the whole configuration file, in a single direct
fs.writeFile of the serialized new configuration to the config path after
a recursive mkdir of its directory; no temp-file-then-rename step is
involved (that pattern lives in the settings store, not here). -/
theorem codex_setEnablement_rewrites_whole_config
    (stringify : CodexConfig → String) (home : List String) (config : CodexConfig)
    (skillPath : List String) (enabled : Bool) :
    (codexSetEnablement stringify home config skillPath enabled).2 =
      [FsOp.mkdirRec (codexConfigDir home),
       FsOp.writeFile (codexConfigPath home)
         (stringify (codexSetEnablement stringify home config skillPath enabled).1)] := rfl

/-- C8: when the install request's skillName filter matches none of the
discovered candidates (case-insensitively), the selection falls back to
all discovered candidates, not zero. -/
theorem install_filter_fallback_all (s : String) (skillDirs : List SkillCandidate)
    (h : ∀ c ∈ skillDirs, toLowerStr c.name ≠ toLowerStr s) :
    selectCandidates (some s) skillDirs = skillDirs := by
  unfold selectCandidates
  have hnil : skillDirs.filter (fun c => toLowerStr c.name == toLowerStr s) = [] := by
    refine List.filter_eq_nil_iff.mpr ?_
    intro c hc
    simpa using h c hc
  simp [hnil]

/-- C8 (witness): a one-candidate scan with a non-matching filter keeps
the candidate. -/
theorem install_filter_fallback_all_witness :
    (∀ c ∈ [({ dir := ["k", "a"], name := "Alpha" } : SkillCandidate)],
        toLowerStr c.name ≠ toLowerStr "Missing")
    ∧ selectCandidates (some "Missing") [{ dir := ["k", "a"], name := "Alpha" }]
        = [{ dir := ["k", "a"], name := "Alpha" }] :=
  ⟨by decide, install_filter_fallback_all "Missing" _ (by decide)⟩

/-- C9 (counterexample): the record parsed from a manifest with no usable
metadata sitting directly in the filesystem root has an EMPTY name — the
directory-name fallback is path.basename(path.dirname(p)), and
path.basename of the root is "" — refuting the claimed invariant that a
record's name is never empty. -/
theorem skill_name_empty_at_root_cex :
    (loadSkillRecord yamlNoneOracle fsRootManifestEx ["SKILL.md"]).name = "" := rfl

/-- C9 (amended): the record's name is non-empty whenever the manifest's
parent directory has a non-empty base name (so everywhere except for a
manifest sitting directly in the filesystem root): a name supplied by the
manifest is used only when non-blank after trimming, and otherwise the
parent directory's base name is used. -/
theorem skill_name_nonempty (yaml : String → Option YamlMap)
    (skillPath : List String) (content : String)
    (h : basename (dirname skillPath) ≠ "") :
    (parseSkillFile yaml skillPath content).name ≠ "" := by
  unfold parseSkillFile
  split
  · simpa using h
  · dsimp only
    split
    · simpa using h
    · dsimp only
      split
      next s heq =>
        split
        next htrim => simpa using htrim
        next => simpa using h
      next => simpa using h

/-- C9 (amended, witness): a manifest one directory below the root gets
the directory's name. -/
theorem skill_name_nonempty_witness :
    (basename (dirname ["foo", "SKILL.md"]) ≠ "")
    ∧ (parseSkillFile yamlNoneOracle ["foo", "SKILL.md"] "plain body").name ≠ "" :=
  ⟨by decide, skill_name_nonempty yamlNoneOracle ["foo", "SKILL.md"] "plain body" (by decide)⟩

/-- C5: the parser is total — a record comes out of every branch — and on
a syntactically broken structured block (the YAML oracle answers none,
standing for a parse failure or an error-carrying document) the result is
exactly what the permissive line-by-line "key: value" scan yields; when
that scan yields nothing at all, the name falls back to the parent
directory's base name and the description is empty. -/
theorem parser_broken_frontmatter_fallback
    (yaml : String → Option YamlMap) (skillPath : List String) (content : String)
    (i : Nat)
    (hstart : hasFrontmatterStart content = true)
    (hclose : closeDelimIndex (splitLines content) = some i)
    (hyaml : yaml (String.intercalate "\n" (((splitLines content).take i).drop 1)) = none) :
    (parseSkillFile yaml skillPath content =
      parseSkillFile
        (fun raw => some ((simpleScan raw).map (fun e => (e.1, YamlValue.str e.2))))
        skillPath content)
    ∧ (simpleScan (String.intercalate "\n" (((splitLines content).take i).drop 1)) = [] →
        (parseSkillFile yaml skillPath content).name = basename (dirname skillPath)
        ∧ (parseSkillFile yaml skillPath content).description = "") := by
  constructor
  · unfold parseSkillFile
    rw [hstart]
    dsimp only
    rw [hclose]
    dsimp only
    rw [hyaml]
  · intro hscan
    unfold parseSkillFile
    rw [hstart]
    dsimp only
    rw [hclose]
    dsimp only
    rw [hyaml, hscan]
    simp [lookupKey]

/-- C5 (witness): a frontmatter block the YAML oracle rejects, handled by
the fallback scan. -/
theorem parser_broken_frontmatter_fallback_witness :
    (hasFrontmatterStart "---\nname: [broken\n---\nbody" = true)
    ∧ (closeDelimIndex (splitLines "---\nname: [broken\n---\nbody") = some 2)
    ∧ (yamlNoneOracle (String.intercalate "\n"
        (((splitLines "---\nname: [broken\n---\nbody").take 2).drop 1)) = none)
    ∧ (parseSkillFile yamlNoneOracle ["r", "dir"] "---\nname: [broken\n---\nbody" =
        parseSkillFile
          (fun raw => some ((simpleScan raw).map (fun e => (e.1, YamlValue.str e.2))))
          ["r", "dir"] "---\nname: [broken\n---\nbody") :=
  ⟨by decide, by decide, rfl,
    (parser_broken_frontmatter_fallback yamlNoneOracle ["r", "dir"]
      "---\nname: [broken\n---\nbody" 2 (by decide) (by decide) rfl).1⟩

/-- C2 (counterexample): toggling a target for which the skill's
TargetState is not-installed does NOT fail and DOES mutate the
filesystem: the service toggle of the later SkillsService succeeds and
copies the skill directory into the target's managed root (the
destination did not exist before and does after). -/
theorem toggle_not_installed_installs_cex :
    svcToggleSkillTarget yamlNoneOracle claudeDispatchEx [claudeTargetEx] [["extra"]]
        fsNotInstalledEx ["extra", "skillA", "SKILL.md"] "claude" = .ok fsAfterToggleEx
    ∧ pathExists fsNotInstalledEx ["home", ".claude", "skills", "skillA"] = false
    ∧ pathExists fsAfterToggleEx ["home", ".claude", "skills", "skillA"] = true := by
  exact ⟨rfl, by decide, by decide⟩

/-- C2 (amended): the registry-level toggle does fail with a descriptive
error when the skill's state for the target is not-installed (and, being
a pure lookup, mutates nothing); the service-level toggle, however,
intercepts that case and, instead of failing, copies the skill's
directory into the target's managed root (when nothing is at the
destination yet) and requests enablement of the copy. -/
theorem toggle_not_installed_amended
    (yaml : String → Option YamlMap)
    (setEnb : TargetModel → FileSys → List String → Bool → Except String FileSys)
    (targets : List TargetModel) (extraRoots : List (List String)) (fs : FileSys)
    (skillId : List String) (targetId : String)
    (skill : SkillEntry) (st : TargetState) (target : TargetModel)
    (managedRoot : List String)
    (hskill : (listSkills yaml fs targets extraRoots).find? (fun s => s.id == skillId)
        = some skill)
    (hst : skill.targets.find? (fun s => s.targetId == targetId) = some st)
    (hstatus : st.status = .notInstalled)
    (htarget : targets.find? (fun t => t.id == targetId) = some target)
    (hsupports : target.supportsEnablement = true)
    (hmanaged : (target.roots.find? target.managed).orElse (fun _ => target.roots.head?)
        = some managedRoot)
    (hfresh : pathExists fs (managedRoot ++ [basename skill.path]) = false) :
    svcToggleSkillTarget yaml setEnb targets extraRoots fs skillId targetId =
      setEnb target (copyDir fs skill.path (managedRoot ++ [basename skill.path]))
        (managedRoot ++ [basename skill.path]) true
    ∧ registryToggleSkillTarget targets skill targetId =
        .error (target.label ++ " does not have this skill installed.") := by
  constructor
  · unfold svcToggleSkillTarget
    simp only [hskill, hst, htarget, hmanaged, hfresh, Option.map_some', hstatus,
      Bool.not_false, if_true, reduceIte]
  · unfold registryToggleSkillTarget
    rw [htarget]
    simp [hsupports, hst, hstatus]

/-- C2 (amended, witness): the concrete scenario of the counterexample
instantiates every hypothesis. -/
theorem toggle_not_installed_amended_witness :
    ((listSkills yamlNoneOracle fsNotInstalledEx [claudeTargetEx] [["extra"]]).find?
        (fun s => s.id == ["extra", "skillA", "SKILL.md"]) = some skillEntryC2Ex)
    ∧ (skillEntryC2Ex.targets.find? (fun s => s.targetId == "claude")
        = some { targetId := "claude", targetLabel := "Claude Code",
                 status := .notInstalled, managed := true, path := none })
    ∧ (pathExists fsNotInstalledEx
        (["home", ".claude", "skills"] ++ [basename skillEntryC2Ex.path]) = false)
    ∧ svcToggleSkillTarget yamlNoneOracle claudeDispatchEx [claudeTargetEx] [["extra"]]
        fsNotInstalledEx ["extra", "skillA", "SKILL.md"] "claude" =
        claudeDispatchEx claudeTargetEx
          (copyDir fsNotInstalledEx skillEntryC2Ex.path
            (["home", ".claude", "skills"] ++ [basename skillEntryC2Ex.path]))
          (["home", ".claude", "skills"] ++ [basename skillEntryC2Ex.path]) true
    ∧ registryToggleSkillTarget [claudeTargetEx] skillEntryC2Ex "claude" =
        .error ("Claude Code" ++ " does not have this skill installed.") := by
  have h := toggle_not_installed_amended yamlNoneOracle claudeDispatchEx [claudeTargetEx]
    [["extra"]] fsNotInstalledEx ["extra", "skillA", "SKILL.md"] "claude"
    skillEntryC2Ex
    { targetId := "claude", targetLabel := "Claude Code",
      status := .notInstalled, managed := true, path := none }
    claudeTargetEx ["home", ".claude", "skills"]
    (by decide) (by decide) rfl rfl rfl rfl (by decide)
  exact ⟨by decide, by decide, by decide, h.1, h.2⟩

/-! ### Helper lemmas for the install copy phase -/

/-- Everything copyDir places lies under the destination. -/
theorem copyDir_copied_under_dest (fs : FileSys) (src dst : List String) :
    ∀ c ∈ fs.files.filterMap (fun e =>
      if src.isPrefixOf e.1 then some (dst ++ e.1.drop src.length, e.2) else none),
      dst <+: c.1 := by
  intro c hc
  obtain ⟨x, _, hx⟩ := List.mem_filterMap.mp hc
  by_cases hs : src.isPrefixOf x.1 = true
  · rw [if_pos hs] at hx
    injection hx with hx2
    subst hx2
    exact List.prefix_append dst (x.1.drop src.length)
  · rw [if_neg hs] at hx
    cases hx

/-- copyDir to a fresh destination removes nothing: every old file is
still in the store. -/
theorem mem_copyDir_of_mem (fs : FileSys) (src dst : List String)
    (h : pathExists fs dst = false) :
    ∀ e ∈ fs.files, e ∈ (copyDir fs src dst).files := by
  intro e he
  have hnot : ∀ c ∈ fs.files.filterMap (fun x =>
      if src.isPrefixOf x.1 then some (dst ++ x.1.drop src.length, x.2) else none),
      (c.1 == e.1) = false := by
    intro c hc
    rw [beq_eq_false_iff_ne]
    intro hce
    have hpref : dst <+: e.1 := hce ▸ copyDir_copied_under_dest fs src dst c hc
    have hex : pathExists fs dst = true := by
      unfold pathExists
      rw [List.any_eq_true]
      exact ⟨e, he, List.isPrefixOf_iff_prefix.mpr hpref⟩
    rw [hex] at h
    cases h
  have hfalse : (fs.files.filterMap (fun x =>
      if src.isPrefixOf x.1 then some (dst ++ x.1.drop src.length, x.2) else none)).any
      (fun c => c.1 == e.1) = false :=
    List.any_eq_false.mpr (fun c hc => by rw [hnot c hc]; exact Bool.false_ne_true)
  unfold copyDir
  simp only [List.mem_append, List.mem_filter]
  left
  exact ⟨he, by rw [hfalse]; rfl⟩

/-- An existing path still exists after a copyDir (files are only added or
replaced by equal-path copies, never dropped). -/
theorem pathExists_copyDir_mono (fs : FileSys) (src dst q : List String)
    (h : pathExists fs q = true) :
    pathExists (copyDir fs src dst) q = true := by
  unfold pathExists at h ⊢
  rw [List.any_eq_true] at h
  obtain ⟨e, he, hq⟩ := h
  rw [List.any_eq_true]
  unfold copyDir
  by_cases hkept :
      (fs.files.filterMap (fun x =>
        if src.isPrefixOf x.1 then some (dst ++ x.1.drop src.length, x.2) else none)).any
        (fun c => c.1 == e.1) = true
  · obtain ⟨c, hc, hce⟩ := List.any_eq_true.mp hkept
    refine ⟨c, ?_, ?_⟩
    · simp only [List.mem_append]
      exact Or.inr hc
    · rwa [show c.1 = e.1 from by simpa using hce]
  · have h2 := Bool.eq_false_iff.mpr hkept
    refine ⟨e, ?_, hq⟩
    simp only [List.mem_append, List.mem_filter]
    exact Or.inl ⟨he, by rw [h2]; rfl⟩

/-- applyCopies over a cons is a copyDir followed by the rest. -/
theorem applyCopies_cons (targetRoot : List String) (fs : FileSys)
    (c : SkillCandidate) (cs : List SkillCandidate) :
    applyCopies targetRoot fs (c :: cs) =
      applyCopies targetRoot (copyDir fs c.dir (targetRoot ++ [basename c.dir])) cs := rfl

/-- The copy loop, on a batch containing a candidate whose destination
already exists, stops at the first such candidate: the error message names
that destination, the copies made before it are kept, and no pre-existing
file was removed. -/
theorem installCopyLoop_stops_at_existing (targetRoot : List String) :
    ∀ (cs : List SkillCandidate) (fs : FileSys),
      (∃ c ∈ cs, pathExists fs (targetRoot ++ [basename c.dir]) = true) →
      ∃ pre c post,
        cs = pre ++ c :: post ∧
        installCopyLoop targetRoot fs cs =
          (some ("Skill already exists at "
              ++ pathToString (targetRoot ++ [basename c.dir])),
           applyCopies targetRoot fs pre) ∧
        pathExists (applyCopies targetRoot fs pre) (targetRoot ++ [basename c.dir]) = true ∧
        (∀ e ∈ fs.files, e ∈ (applyCopies targetRoot fs pre).files) := by
  intro cs
  induction cs with
  | nil => intro fs hex; simp at hex
  | cons c0 rest ih =>
    intro fs hex
    by_cases h0 : pathExists fs (targetRoot ++ [basename c0.dir]) = true
    · refine ⟨[], c0, rest, rfl, ?_, ?_, ?_⟩
      · unfold installCopyLoop
        simp [h0, applyCopies]
      · simpa [applyCopies] using h0
      · intro e he; simpa [applyCopies] using he
    · have h0' : pathExists fs (targetRoot ++ [basename c0.dir]) = false :=
        Bool.eq_false_iff.mpr h0
      obtain ⟨c, hcmem, hcex⟩ := hex
      have hcrest : c ∈ rest := by
        rcases List.mem_cons.mp hcmem with h | h
        · exact absurd (h ▸ hcex) h0
        · exact h
      have hex1 : ∃ c ∈ rest,
          pathExists (copyDir fs c0.dir (targetRoot ++ [basename c0.dir]))
            (targetRoot ++ [basename c.dir]) = true :=
        ⟨c, hcrest, pathExists_copyDir_mono _ _ _ _ hcex⟩
      obtain ⟨pre, c', post, heq, hloop, hpe, hpres⟩ :=
        ih (copyDir fs c0.dir (targetRoot ++ [basename c0.dir])) hex1
      refine ⟨c0 :: pre, c', post, by rw [heq, List.cons_append], ?_, ?_, ?_⟩
      · unfold installCopyLoop
        simp only [h0', if_false, Bool.false_eq_true]
        rw [applyCopies_cons]
        exact hloop
      · rw [applyCopies_cons]; exact hpe
      · intro e he
        rw [applyCopies_cons]
        exact hpres e (mem_copyDir_of_mem fs c0.dir _ h0' e he)

/-- C3: an install whose selected candidates include one whose destination
(target root joined with the candidate folder's base name) already exists
returns an error result whose message references that existing path; no
file of the prior store is deleted or modified (the pre-existing folder
included), and the candidates copied before the clash remain copied — the
final store is exactly the store with the earlier candidates' copies
applied. -/
theorem install_existing_dest_error
    (targetRoot : List String) (fs : FileSys) (skillName : Option String)
    (skillDirs : List SkillCandidate)
    (hex : ∃ c ∈ selectCandidates skillName skillDirs,
        pathExists fs (targetRoot ++ [basename c.dir]) = true) :
    ∃ pre c post,
      selectCandidates skillName skillDirs = pre ++ c :: post ∧
      installSkillCopyPhase targetRoot fs skillName skillDirs =
        (.error ("Skill already exists at "
            ++ pathToString (targetRoot ++ [basename c.dir])),
         applyCopies targetRoot fs pre) ∧
      pathExists (applyCopies targetRoot fs pre) (targetRoot ++ [basename c.dir]) = true ∧
      (∀ e ∈ fs.files, e ∈ (applyCopies targetRoot fs pre).files) := by
  obtain ⟨pre, c, post, heq, hloop, hpe, hpres⟩ :=
    installCopyLoop_stops_at_existing targetRoot (selectCandidates skillName skillDirs) fs hex
  have hne : skillDirs.isEmpty = false := by
    cases skillDirs with
    | nil =>
      exfalso
      obtain ⟨c', hc', _⟩ := hex
      have hsel : selectCandidates skillName [] = [] := by
        unfold selectCandidates
        cases skillName <;> simp
      rw [hsel] at hc'
      simp at hc'
    | cons d ds => rfl
  refine ⟨pre, c, post, heq, ?_, hpe, hpres⟩
  unfold installSkillCopyPhase
  rw [hne]
  simp only [Bool.false_eq_true, if_false, hloop]

/-- C3 (witness): one candidate whose destination is already populated;
the install errors naming the destination and the pre-existing file
survives. -/
theorem install_existing_dest_error_witness :
    (∃ c ∈ selectCandidates none [({ dir := ["tmp", "foo"], name := "Foo" } : SkillCandidate)],
        pathExists ⟨[(["root", "foo", "SKILL.md"], "old")]⟩
          (["root"] ++ [basename c.dir]) = true)
    ∧ (∃ pre c post,
        selectCandidates none [({ dir := ["tmp", "foo"], name := "Foo" } : SkillCandidate)]
          = pre ++ c :: post ∧
        installSkillCopyPhase ["root"] ⟨[(["root", "foo", "SKILL.md"], "old")]⟩ none
            [{ dir := ["tmp", "foo"], name := "Foo" }] =
          (.error ("Skill already exists at "
              ++ pathToString (["root"] ++ [basename c.dir])),
           applyCopies ["root"] ⟨[(["root", "foo", "SKILL.md"], "old")]⟩ pre) ∧
        pathExists (applyCopies ["root"] ⟨[(["root", "foo", "SKILL.md"], "old")]⟩ pre)
          (["root"] ++ [basename c.dir]) = true ∧
        (∀ e ∈ (⟨[(["root", "foo", "SKILL.md"], "old")]⟩ : FileSys).files,
          e ∈ (applyCopies ["root"] ⟨[(["root", "foo", "SKILL.md"], "old")]⟩ pre).files)) :=
  ⟨by decide,
    install_existing_dest_error ["root"] ⟨[(["root", "foo", "SKILL.md"], "old")]⟩ none
      [{ dir := ["tmp", "foo"], name := "Foo" }] (by decide)⟩

/-! ### Helper lemmas about moves between disjoint directories -/

theorem isPrefixOf_append_self (a b : List String) : a.isPrefixOf (a ++ b) = true :=
  List.isPrefixOf_iff_prefix.mpr (List.prefix_append a b)

/-- Two mutually non-prefix paths cannot both be above one file. -/
theorem not_both_above {a b l : List String}
    (h1 : ¬ a <+: b) (h2 : ¬ b <+: a) (ha : a <+: l) (hb : b <+: l) : False :=
  (List.prefix_or_prefix_of_prefix ha hb).elim h1 h2

/-- The skill's root location and its .disabled location are mutually
non-prefix as long as the skill is not itself named ".disabled". -/
theorem skill_disabled_mutual_not_above (r : List String) (n : String)
    (hn : n ≠ ".disabled") :
    ¬ (r ++ [n]) <+: (r ++ [".disabled", n]) ∧ ¬ (r ++ [".disabled", n]) <+: (r ++ [n]) := by
  constructor
  · intro h
    have h' := (List.prefix_append_right_inj r).mp h
    exact hn (List.cons_prefix_cons.mp h').1
  · intro h
    have := h.length_le
    simp at this

/-- After moveSkill, the destination subtree is exactly the relocated
source subtree: whatever lived at the destination before — a non-empty
directory included — is gone, never merged. -/
theorem filesUnder_moveSkill_dest (fs : FileSys) (src dst : List String)
    (h1 : ¬ src <+: dst) (h2 : ¬ dst <+: src) :
    filesUnder (moveSkill fs src dst) dst
      = (filesUnder fs src).map (fun e => (dst ++ e.1.drop src.length, e.2)) := by
  obtain ⟨l⟩ := fs
  unfold moveSkill renameTree rmRec filesUnder
  dsimp only
  induction l with
  | nil => rfl
  | cons e l ih =>
    by_cases hd : dst.isPrefixOf e.1 = true
    · have hs : src.isPrefixOf e.1 = false := by
        by_contra hs'
        have hs2 : src <+: e.1 :=
          List.isPrefixOf_iff_prefix.mp (Bool.not_eq_false _ ▸ Bool.of_not_eq_false hs')
        exact not_both_above h1 h2 hs2 (List.isPrefixOf_iff_prefix.mp hd)
      simp only [List.filter_cons, hd, Bool.not_true, Bool.false_eq_true, if_false, hs, ih]
    · have hd' : dst.isPrefixOf e.1 = false := Bool.eq_false_iff.mpr hd
      by_cases hs : src.isPrefixOf e.1 = true
      · simp only [List.filter_cons, hd', Bool.not_false, if_true, List.map_cons, hs,
          reduceIte, isPrefixOf_append_self, List.filter_cons, ih]
      · have hs' : src.isPrefixOf e.1 = false := Bool.eq_false_iff.mpr hs
        simp only [List.filter_cons, hd', Bool.not_false, if_true, List.map_cons, hs',
          Bool.false_eq_true, if_false, ih]

/-- C10: a Convention-A setEnablement call whose move actually runs (the
source directory exists) performs the move after recursively removing
whatever is at the destination (removal failures being swallowed): the
call succeeds with exactly the moved store, and the destination subtree
afterwards is exactly the relocated source subtree — the destination's
previous contents, non-empty directories included, are never preserved or
merged.  The direction of the move follows the requested flag. -/
theorem moveSkill_replaces_destination
    (roots : List (List String)) (fs : FileSys) (skillPath : List String)
    (enabled : Bool) (r : List String) (n : String)
    (hfind : roots.find? (fun c =>
        isUnderRoot skillPath c || isUnderRoot skillPath (getDisabledRoot c)) = some r)
    (hbase : basename skillPath = n)
    (hn : n ≠ ".disabled")
    (hsrc : pathExists fs (if enabled then getDisabledRoot r ++ [n] else r ++ [n]) = true) :
    claudeSetEnablement roots fs skillPath enabled =
      .ok (moveSkill fs (if enabled then getDisabledRoot r ++ [n] else r ++ [n])
        (if enabled then r ++ [n] else getDisabledRoot r ++ [n]))
    ∧ filesUnder
        (moveSkill fs (if enabled then getDisabledRoot r ++ [n] else r ++ [n])
          (if enabled then r ++ [n] else getDisabledRoot r ++ [n]))
        (if enabled then r ++ [n] else getDisabledRoot r ++ [n])
      = (filesUnder fs (if enabled then getDisabledRoot r ++ [n] else r ++ [n])).map
          (fun e => ((if enabled then r ++ [n] else getDisabledRoot r ++ [n])
            ++ e.1.drop (if enabled then getDisabledRoot r ++ [n] else r ++ [n]).length,
            e.2)) := by
  have hdis : getDisabledRoot r ++ [n] = r ++ [".disabled", n] := by
    simp [getDisabledRoot]
  have hexcl := skill_disabled_mutual_not_above r n hn
  constructor
  · unfold claudeSetEnablement
    rw [hfind]
    dsimp only
    rw [hbase]
    cases enabled with
    | true => rw [if_pos rfl] at hsrc ⊢; simp only [if_true, hsrc, if_pos]
    | false => rw [if_neg (by simp)] at hsrc ⊢; simp only [Bool.false_eq_true, if_false, hsrc, if_pos]
  · cases enabled with
    | true =>
      simp only [if_true]
      rw [hdis]
      exact filesUnder_moveSkill_dest fs (r ++ [".disabled", n]) (r ++ [n])
        hexcl.2 hexcl.1
    | false =>
      simp only [Bool.false_eq_true, if_false]
      rw [hdis]
      exact filesUnder_moveSkill_dest fs (r ++ [n]) (r ++ [".disabled", n])
        hexcl.1 hexcl.2

/-- C10 (witness): disabling a skill whose .disabled destination already
holds a non-empty directory of the same name. -/
theorem moveSkill_replaces_destination_witness :
    (([["h", "skills"]] : List (List String)).find? (fun c =>
        isUnderRoot ["h", "skills", "a"] c
        || isUnderRoot ["h", "skills", "a"] (getDisabledRoot c)) = some ["h", "skills"])
    ∧ (basename ["h", "skills", "a"] = "a")
    ∧ (("a" : String) ≠ ".disabled")
    ∧ (pathExists
        ⟨[(["h", "skills", "a", "SKILL.md"], "new"),
          (["h", "skills", ".disabled", "a", "SKILL.md"], "stale"),
          (["h", "skills", ".disabled", "a", "extra.txt"], "stale2")]⟩
        (if false then getDisabledRoot ["h", "skills"] ++ ["a"]
         else ["h", "skills"] ++ ["a"]) = true)
    ∧ claudeSetEnablement [["h", "skills"]]
        ⟨[(["h", "skills", "a", "SKILL.md"], "new"),
          (["h", "skills", ".disabled", "a", "SKILL.md"], "stale"),
          (["h", "skills", ".disabled", "a", "extra.txt"], "stale2")]⟩
        ["h", "skills", "a"] false =
        .ok (moveSkill
          ⟨[(["h", "skills", "a", "SKILL.md"], "new"),
            (["h", "skills", ".disabled", "a", "SKILL.md"], "stale"),
            (["h", "skills", ".disabled", "a", "extra.txt"], "stale2")]⟩
          (if false then getDisabledRoot ["h", "skills"] ++ ["a"]
           else ["h", "skills"] ++ ["a"])
          (if false then ["h", "skills"] ++ ["a"]
           else getDisabledRoot ["h", "skills"] ++ ["a"])) := by
  have h := moveSkill_replaces_destination [["h", "skills"]]
    ⟨[(["h", "skills", "a", "SKILL.md"], "new"),
      (["h", "skills", ".disabled", "a", "SKILL.md"], "stale"),
      (["h", "skills", ".disabled", "a", "extra.txt"], "stale2")]⟩
    ["h", "skills", "a"] false ["h", "skills"] "a"
    (by decide) (by decide) (by decide) (by decide)
  exact ⟨by decide, by decide, by decide, by decide, h.1⟩

/-- A subtree that exists reappears at the destination of a moveSkill. -/
theorem pathExists_moveSkill_dest (fs : FileSys) (a b : List String)
    (h1 : ¬ a <+: b) (h2 : ¬ b <+: a) (hex : pathExists fs a = true) :
    pathExists (moveSkill fs a b) b = true := by
  unfold pathExists at hex ⊢
  rw [List.any_eq_true] at hex ⊢
  obtain ⟨e, he, hae⟩ := hex
  have ha : a <+: e.1 := List.isPrefixOf_iff_prefix.mp hae
  have hb : b.isPrefixOf e.1 = false := by
    by_contra hb'
    exact not_both_above h1 h2 ha (List.isPrefixOf_iff_prefix.mp (Bool.of_not_eq_false hb'))
  refine ⟨(b ++ e.1.drop a.length, e.2), ?_, isPrefixOf_append_self b _⟩
  unfold moveSkill renameTree rmRec
  simp only [List.mem_map, List.mem_filter]
  exact ⟨e, ⟨he, by rw [hb]; rfl⟩, by rw [hae]; rfl⟩

/-- Moving a subtree away and back restores it exactly (whatever
collision previously sat at the intermediate location is destroyed, but
the subtree itself round-trips). -/
theorem filesUnder_move_roundtrip (fs : FileSys) (a b : List String)
    (h1 : ¬ a <+: b) (h2 : ¬ b <+: a) :
    filesUnder (moveSkill (moveSkill fs a b) b a) a = filesUnder fs a := by
  obtain ⟨l⟩ := fs
  unfold moveSkill renameTree rmRec filesUnder
  dsimp only
  induction l with
  | nil => rfl
  | cons e l ih =>
    by_cases ha : a.isPrefixOf e.1 = true
    · have hb : b.isPrefixOf e.1 = false := by
        by_contra hb'
        exact not_both_above h1 h2 (List.isPrefixOf_iff_prefix.mp ha)
          (List.isPrefixOf_iff_prefix.mp (Bool.of_not_eq_false hb'))
      obtain ⟨t, ht⟩ := List.isPrefixOf_iff_prefix.mp ha
      have hdropa : e.1.drop a.length = t := by rw [← ht, List.drop_left]
      have hanotb : a.isPrefixOf (b ++ t) = false := by
        by_contra hab'
        exact not_both_above h1 h2
          (List.isPrefixOf_iff_prefix.mp (Bool.of_not_eq_false hab'))
          (List.prefix_append b t)
      have hbt : b.isPrefixOf (b ++ t) = true := isPrefixOf_append_self b t
      simp only [List.filter_cons, hb, Bool.not_false, if_true, List.map_cons, ha,
        reduceIte, hdropa, hanotb, hbt, List.drop_left, ht, Prod.mk.eta, ih]
    · have ha' : a.isPrefixOf e.1 = false := Bool.eq_false_iff.mpr ha
      by_cases hb : b.isPrefixOf e.1 = true
      · simp only [List.filter_cons, hb, Bool.not_true, Bool.false_eq_true, if_false,
          ha', ih]
      · have hb' : b.isPrefixOf e.1 = false := Bool.eq_false_iff.mpr hb
        simp only [List.filter_cons, hb', Bool.not_false, if_true, List.map_cons, ha',
          Bool.false_eq_true, if_false, reduceIte, ih]

/-- C6: for a skill enabled at root/name of a Convention-A target (no
".disabled" naming collision in the name itself), toggling it to disabled
and back to enabled — the second call addressed at the .disabled location
the re-listing reports — succeeds at both steps and leaves the files of
the skill directory exactly where and as they originally were. -/
theorem claude_enablement_roundtrip
    (roots : List (List String)) (fs : FileSys) (r : List String) (n : String)
    (hn : n ≠ ".disabled")
    (hfind1 : roots.find? (fun c =>
        isUnderRoot (r ++ [n]) c
        || isUnderRoot (r ++ [n]) (getDisabledRoot c)) = some r)
    (hfind2 : roots.find? (fun c =>
        isUnderRoot (r ++ [".disabled", n]) c
        || isUnderRoot (r ++ [".disabled", n]) (getDisabledRoot c)) = some r)
    (hex : pathExists fs (r ++ [n]) = true) :
    claudeSetEnablement roots fs (r ++ [n]) false =
      .ok (moveSkill fs (r ++ [n]) (r ++ [".disabled", n]))
    ∧ claudeSetEnablement roots (moveSkill fs (r ++ [n]) (r ++ [".disabled", n]))
        (r ++ [".disabled", n]) true =
      .ok (moveSkill (moveSkill fs (r ++ [n]) (r ++ [".disabled", n]))
        (r ++ [".disabled", n]) (r ++ [n]))
    ∧ filesUnder (moveSkill (moveSkill fs (r ++ [n]) (r ++ [".disabled", n]))
        (r ++ [".disabled", n]) (r ++ [n])) (r ++ [n]) = filesUnder fs (r ++ [n]) := by
  have hexcl := skill_disabled_mutual_not_above r n hn
  have hdis : getDisabledRoot r ++ [n] = r ++ [".disabled", n] := by
    simp [getDisabledRoot]
  have hb1 : basename (r ++ [n]) = n := by
    simp [basename, List.getLast?_concat]
  have hb2 : basename (r ++ [".disabled", n]) = n := by
    have : r ++ [".disabled", n] = (r ++ [".disabled"]) ++ [n] := by simp
    rw [this]
    simp [basename, List.getLast?_concat]
  refine ⟨?_, ?_, ?_⟩
  · unfold claudeSetEnablement
    rw [hfind1]
    dsimp only
    rw [hb1, hdis]
    simp only [Bool.false_eq_true, if_false, hex, if_true, reduceIte]
  · have hex1 : pathExists (moveSkill fs (r ++ [n]) (r ++ [".disabled", n]))
        (r ++ [".disabled", n]) = true :=
      pathExists_moveSkill_dest fs (r ++ [n]) (r ++ [".disabled", n])
        hexcl.1 hexcl.2 hex
    unfold claudeSetEnablement
    rw [hfind2]
    dsimp only
    rw [hb2, hdis]
    simp only [if_true, hex1, reduceIte]
  · exact filesUnder_move_roundtrip fs (r ++ [n]) (r ++ [".disabled", n])
      hexcl.1 hexcl.2

/-- C6 (witness): the round trip on a one-skill store. -/
theorem claude_enablement_roundtrip_witness :
    (("a" : String) ≠ ".disabled")
    ∧ (([["h", "skills"]] : List (List String)).find? (fun c =>
        isUnderRoot (["h", "skills"] ++ ["a"]) c
        || isUnderRoot (["h", "skills"] ++ ["a"]) (getDisabledRoot c)) = some ["h", "skills"])
    ∧ (([["h", "skills"]] : List (List String)).find? (fun c =>
        isUnderRoot (["h", "skills"] ++ [".disabled", "a"]) c
        || isUnderRoot (["h", "skills"] ++ [".disabled", "a"]) (getDisabledRoot c))
        = some ["h", "skills"])
    ∧ (pathExists ⟨[(["h", "skills", "a", "SKILL.md"], "text")]⟩
        (["h", "skills"] ++ ["a"]) = true)
    ∧ filesUnder
        (moveSkill (moveSkill ⟨[(["h", "skills", "a", "SKILL.md"], "text")]⟩
            (["h", "skills"] ++ ["a"]) (["h", "skills"] ++ [".disabled", "a"]))
          (["h", "skills"] ++ [".disabled", "a"]) (["h", "skills"] ++ ["a"]))
        (["h", "skills"] ++ ["a"])
      = filesUnder ⟨[(["h", "skills", "a", "SKILL.md"], "text")]⟩
          (["h", "skills"] ++ ["a"]) := by
  have h := claude_enablement_roundtrip [["h", "skills"]]
    ⟨[(["h", "skills", "a", "SKILL.md"], "text")]⟩ ["h", "skills"] "a"
    (by decide) (by decide) (by decide) (by decide)
  exact ⟨by decide, by decide, by decide, by decide, h.2.2⟩

/-! ### Order lemmas for the locale comparator -/

theorem charListLt_trans :
    ∀ x y z : List Char, charListLt x y = true → charListLt y z = true →
      charListLt x z = true := by
  intro x
  induction x with
  | nil =>
    intro y z hxy hyz
    cases y with
    | nil => cases hxy
    | cons b bs =>
      cases z with
      | nil => cases hyz
      | cons c cs => rfl
  | cons a as ih =>
    intro y z hxy hyz
    cases y with
    | nil => cases hxy
    | cons b bs =>
      cases z with
      | nil => cases hyz
      | cons c cs =>
        simp only [charListLt, Bool.or_eq_true, Bool.and_eq_true, beq_iff_eq,
          decide_eq_true_eq] at hxy hyz ⊢
        rcases hxy with h | ⟨hab, hxy'⟩
        · rcases hyz with h2 | ⟨hbc, hyz'⟩
          · exact Or.inl (Nat.lt_trans h h2)
          · exact Or.inl (hbc ▸ h)
        · rcases hyz with h2 | ⟨hbc, hyz'⟩
          · exact Or.inl (hab ▸ h2)
          · exact Or.inr ⟨hab.trans hbc, ih bs cs hxy' hyz'⟩

theorem charListLt_irrefl : ∀ x : List Char, charListLt x x = false := by
  intro x
  induction x with
  | nil => rfl
  | cons a as ih => simp [charListLt, ih]

theorem charListLt_connex :
    ∀ x y : List Char, charListLt x y = false → charListLt y x = false → x = y := by
  intro x
  induction x with
  | nil =>
    intro y h1 _
    cases y with
    | nil => rfl
    | cons b bs => cases h1
  | cons a as ih =>
    intro y h1 h2
    cases y with
    | nil => cases h2
    | cons b bs =>
      simp only [charListLt, Bool.or_eq_false_iff, Bool.and_eq_false_iff,
        decide_eq_false_iff_not, Nat.not_lt, beq_eq_false_iff_ne, ne_eq] at h1 h2
      have heq : a.toNat = b.toNat := Nat.le_antisymm h2.1 h1.1
      have hab : a = b := Char.ext (UInt32.ext heq)
      subst hab
      rcases h1.2 with h | h
      · exact absurd heq h
      · rcases h2.2 with h' | h'
        · exact absurd heq h'
        · rw [ih bs h h']

theorem maskLt_trans :
    ∀ x y z : List Bool, maskLt x y = true → maskLt y z = true → maskLt x z = true := by
  intro x
  induction x with
  | nil =>
    intro y z hxy hyz
    cases y with
    | nil => cases hxy
    | cons b bs =>
      cases z with
      | nil => cases hyz
      | cons c cs => rfl
  | cons a as ih =>
    intro y z hxy hyz
    cases y with
    | nil => cases hxy
    | cons b bs =>
      cases z with
      | nil => cases hyz
      | cons c cs =>
        simp only [maskLt, Bool.or_eq_true, Bool.and_eq_true, beq_iff_eq] at hxy hyz ⊢
        rcases hxy with h | ⟨hab, hxy'⟩
        · rcases hyz with h2 | ⟨hbc, hyz'⟩
          · cases a <;> cases b <;> cases c <;> simp_all
          · exact Or.inl (hbc ▸ h)
        · rcases hyz with h2 | ⟨hbc, hyz'⟩
          · exact Or.inl (hab ▸ h2)
          · exact Or.inr ⟨hab.trans hbc, ih bs cs hxy' hyz'⟩

theorem maskLt_irrefl : ∀ x : List Bool, maskLt x x = false := by
  intro x
  induction x with
  | nil => rfl
  | cons a as ih => simp [maskLt, ih]

theorem maskLt_connex :
    ∀ x y : List Bool, maskLt x y = false → maskLt y x = false → x = y := by
  intro x
  induction x with
  | nil =>
    intro y h1 _
    cases y with
    | nil => rfl
    | cons b bs => cases h1
  | cons a as ih =>
    intro y h1 h2
    cases y with
    | nil => cases h2
    | cons b bs =>
      have hab : a = b := by cases a <;> cases b <;> simp_all [maskLt]
      subst hab
      have h1' : maskLt as bs = false := by simpa [maskLt] using h1
      have h2' : maskLt bs as = false := by simpa [maskLt] using h2
      rw [ih bs h1' h2']

/-- The shape of "localeCompare at most 0". -/
theorem localeCompare_le_zero (a b : String) :
    localeCompare a b ≤ 0 ↔
      (strLt (toLowerStr a) (toLowerStr b) = true
        ∨ (toLowerStr a = toLowerStr b
            ∧ (maskLt (caseMask a) (caseMask b) = true ∨ caseMask a = caseMask b))) := by
  unfold localeCompare
  split_ifs with h1 h2 h3 h4
  · constructor
    · intro _; exact Or.inl h1
    · intro _; omega
  · constructor
    · intro h; omega
    · rintro (h | ⟨heq, _⟩)
      · exact absurd h (by simp [h1])
      · rw [heq] at h2
        unfold strLt at h2
        rw [charListLt_irrefl] at h2
        cases h2
  · have heq : toLowerStr a = toLowerStr b := by
      refine String.ext ?_
      exact charListLt_connex _ _ (Bool.eq_false_iff.mpr h1) (Bool.eq_false_iff.mpr h2)
    constructor
    · intro _; exact Or.inr ⟨heq, Or.inl h3⟩
    · intro _; omega
  · constructor
    · intro h; omega
    · rintro (h | ⟨_, h | h⟩)
      · exact absurd h (by simp [h1])
      · exact absurd h (by simp [h3])
      · rw [h] at h4
        rw [maskLt_irrefl] at h4
        cases h4
  · have heq : toLowerStr a = toLowerStr b := by
      refine String.ext ?_
      exact charListLt_connex _ _ (Bool.eq_false_iff.mpr h1) (Bool.eq_false_iff.mpr h2)
    have hmask : caseMask a = caseMask b :=
      maskLt_connex _ _ (Bool.eq_false_iff.mpr h3) (Bool.eq_false_iff.mpr h4)
    constructor
    · intro _; exact Or.inr ⟨heq, Or.inr hmask⟩
    · intro _; omega

theorem localeCompare_le_zero_trans (a b c : String)
    (hab : localeCompare a b ≤ 0) (hbc : localeCompare b c ≤ 0) :
    localeCompare a c ≤ 0 := by
  rw [localeCompare_le_zero] at hab hbc ⊢
  rcases hab with h | ⟨heq, hm⟩
  · rcases hbc with h2 | ⟨heq2, _⟩
    · exact Or.inl (charListLt_trans _ _ _ h h2)
    · exact Or.inl (heq2 ▸ h)
  · rcases hbc with h2 | ⟨heq2, hm2⟩
    · exact Or.inl (heq ▸ h2)
    · refine Or.inr ⟨heq.trans heq2, ?_⟩
      rcases hm with h | h
      · rcases hm2 with h2 | h2
        · exact Or.inl (maskLt_trans _ _ _ h h2)
        · exact Or.inl (h2 ▸ h)
      · rcases hm2 with h2 | h2
        · exact Or.inl (h ▸ h2)
        · exact Or.inr (h.trans h2)

theorem localeCompare_le_zero_total (a b : String) :
    localeCompare a b ≤ 0 ∨ localeCompare b a ≤ 0 := by
  rw [localeCompare_le_zero, localeCompare_le_zero]
  by_cases h1 : strLt (toLowerStr a) (toLowerStr b) = true
  · exact Or.inl (Or.inl h1)
  by_cases h2 : strLt (toLowerStr b) (toLowerStr a) = true
  · exact Or.inr (Or.inl h2)
  have heq : toLowerStr a = toLowerStr b := String.ext
    (charListLt_connex _ _ (Bool.eq_false_iff.mpr h1) (Bool.eq_false_iff.mpr h2))
  by_cases h3 : maskLt (caseMask a) (caseMask b) = true
  · exact Or.inl (Or.inr ⟨heq, Or.inl h3⟩)
  by_cases h4 : maskLt (caseMask b) (caseMask a) = true
  · exact Or.inr (Or.inr ⟨heq.symm, Or.inl h4⟩)
  exact Or.inl (Or.inr ⟨heq,
    Or.inr (maskLt_connex _ _ (Bool.eq_false_iff.mpr h3) (Bool.eq_false_iff.mpr h4))⟩)

/-! ### Stable sort lemmas -/

theorem insertStable_perm (le : α → α → Bool) (x : α) (l : List α) :
    (insertStable le x l).Perm (x :: l) := by
  induction l with
  | nil => exact List.Perm.refl _
  | cons y ys ih =>
    unfold insertStable
    by_cases h : le y x = true
    · rw [if_pos h]
      exact (ih.cons y).trans (List.Perm.swap x y ys)
    · rw [if_neg h]

theorem stableSort_perm_aux (le : α → α → Bool) :
    ∀ (l acc : List α),
      (l.foldl (fun a x => insertStable le x a) acc).Perm (acc ++ l) := by
  intro l
  induction l with
  | nil => intro acc; simp
  | cons x xs ih =>
    intro acc
    have h1 := ih (insertStable le x acc)
    have h2 : (insertStable le x acc ++ xs).Perm ((x :: acc) ++ xs) :=
      (insertStable_perm le x acc).append_right xs
    exact (h1.trans h2).trans List.perm_middle.symm

theorem stableSort_perm (le : α → α → Bool) (l : List α) :
    (stableSort le l).Perm l := by
  simpa using stableSort_perm_aux le l []

theorem insertStable_pairwise (le : α → α → Bool)
    (htrans : ∀ a b c, le a b = true → le b c = true → le a c = true)
    (htot : ∀ a b, le a b = true ∨ le b a = true)
    (x : α) (l : List α) (h : l.Pairwise (fun a b => le a b = true)) :
    (insertStable le x l).Pairwise (fun a b => le a b = true) := by
  induction l with
  | nil => simp [insertStable]
  | cons y ys ih =>
    obtain ⟨hy, hys⟩ := List.pairwise_cons.mp h
    unfold insertStable
    by_cases hle : le y x = true
    · rw [if_pos hle]
      refine List.pairwise_cons.mpr ⟨?_, ih hys⟩
      intro z hz
      rcases List.mem_cons.mp ((insertStable_perm le x ys).mem_iff.mp hz) with rfl | hzys
      · exact hle
      · exact hy z hzys
    · rw [if_neg hle]
      have hxy : le x y = true := (htot x y).resolve_right hle
      refine List.pairwise_cons.mpr ⟨?_, h⟩
      intro z hz
      rcases List.mem_cons.mp hz with rfl | hzys
      · exact hxy
      · exact htrans x y z hxy (hy z hzys)

theorem stableSort_pairwise_aux (le : α → α → Bool)
    (htrans : ∀ a b c, le a b = true → le b c = true → le a c = true)
    (htot : ∀ a b, le a b = true ∨ le b a = true) :
    ∀ (l acc : List α), acc.Pairwise (fun a b => le a b = true) →
      (l.foldl (fun a x => insertStable le x a) acc).Pairwise (fun a b => le a b = true) := by
  intro l
  induction l with
  | nil => intro acc hacc; exact hacc
  | cons x xs ih =>
    intro acc hacc
    exact ih (insertStable le x acc) (insertStable_pairwise le htrans htot x acc hacc)

theorem stableSort_pairwise (le : α → α → Bool)
    (htrans : ∀ a b c, le a b = true → le b c = true → le a c = true)
    (htot : ∀ a b, le a b = true ∨ le b a = true) (l : List α) :
    (stableSort le l).Pairwise (fun a b => le a b = true) :=
  stableSort_pairwise_aux le htrans htot l [] List.Pairwise.nil

/-- C4 (counterexample): a store with skills named "alpha" and "Beta"
comes back as [alpha, Beta] — in case-sensitive code-point order "Beta"
(B, U+0042) precedes "alpha" (a, U+0061), so the returned list is NOT
sorted in code-point order, refuting the claim. -/
theorem listSkills_sort_not_codepoint_cex :
    ¬ (listSkills yamlNoneOracle fsSortCex [] [["r1"]]).Pairwise
      (fun a b => strLt b.name a.name = false) := by
  decide

/-- C4 (amended): for every fixed store, the list listSkills returns is
sorted by skill name under the default-locale collation
(String.prototype.localeCompare: primary case-insensitive code-point
order, lower case first on case ties) — not under case-sensitive
code-point order. -/
theorem listSkills_sorted_locale (yaml : String → Option YamlMap) (fs : FileSys)
    (targets : List TargetModel) (extraRoots : List (List String)) :
    (listSkills yaml fs targets extraRoots).Pairwise
      (fun a b => localeCompare a.name b.name ≤ 0) := by
  unfold listSkills
  have h := stableSort_pairwise entryLe
    (fun a b c hab hbc => by
      unfold entryLe at hab hbc ⊢
      rw [decide_eq_true_eq] at hab hbc ⊢
      exact localeCompare_le_zero_trans _ _ _ hab hbc)
    (fun a b => by
      unfold entryLe
      rw [decide_eq_true_eq, decide_eq_true_eq]
      exact localeCompare_le_zero_total _ _)
  exact (h _).imp (fun hab => by
    unfold entryLe at hab
    rwa [decide_eq_true_eq] at hab)

/-! ### The merge invariant of buildSkillMap -/

/-- One addOccurrence step keeps at most one map entry per key. -/
theorem addOcc_countP_le (m : List (String × SkillEntryCandidate)) (root : List String)
    (rec : SkillRecord) (skillPath : List String)
    (h1 : ∀ k, m.countP (fun e => e.1 == k) ≤ 1) :
    ∀ k, (addOccurrence m root rec skillPath).countP (fun e => e.1 == k) ≤ 1 := by
  intro k
  unfold addOccurrence
  dsimp only
  split
  next hmem =>
    rw [List.countP_map]
    calc List.countP _ m = m.countP (fun e => e.1 == k) := by
          refine List.countP_congr ?_
          intro e _
          by_cases he : e.1 == toLowerStr rec.name
          · simp [Function.comp, he]
          · simp [Function.comp, he]
      _ ≤ 1 := h1 k
  next hmem =>
    rw [List.countP_append]
    have hz : m.countP (fun e => e.1 == k) = 0 ∨ k ≠ toLowerStr rec.name := by
      by_cases hk : k = toLowerStr rec.name
      · subst hk
        refine Or.inl (List.countP_eq_zero.mpr ?_)
        intro e he
        exact fun hc => hmem (List.any_eq_true.mpr ⟨e, he, hc⟩)
      · exact Or.inr hk
    rcases hz with hz | hz
    · rw [hz]
      simp only [List.countP_cons, List.countP_nil, Nat.zero_add, beq_iff_eq]
      split <;> omega
    · have : List.countP (fun e => e.1 == k) [((toLowerStr rec.name : String),
          ({ record := { rec with sourceRoots := [root] },
             entries := [(skillPath, root)] } : SkillEntryCandidate))] = 0 := by
        simp [List.countP_cons, hz, Ne.symm hz]
      rw [this]
      have := h1 k
      omega

/-- Map keys are the lower-cased record names. -/
theorem addOcc_key_coherent (m : List (String × SkillEntryCandidate)) (root : List String)
    (rec : SkillRecord) (skillPath : List String)
    (h2 : ∀ e ∈ m, toLowerStr e.2.record.name = e.1) :
    ∀ e' ∈ addOccurrence m root rec skillPath, toLowerStr e'.2.record.name = e'.1 := by
  intro e' he'
  unfold addOccurrence at he'
  dsimp only at he'
  split at he'
  next hmem =>
    obtain ⟨e, he, hupd⟩ := List.mem_map.mp he'
    by_cases hk : e.1 == toLowerStr rec.name
    · rw [if_pos hk] at hupd
      rw [← hupd]
      exact h2 e he
    · rw [if_neg hk] at hupd
      rw [← hupd]
      exact h2 e he
  next hmem =>
    rcases List.mem_append.mp he' with h | h
    · exact h2 e' h
    · rcases List.mem_singleton.mp h with rfl
      rfl

/-- The key set after a step is the old key set plus the new key. -/
theorem addOcc_keys (m : List (String × SkillEntryCandidate)) (root : List String)
    (rec : SkillRecord) (skillPath : List String) :
    ∀ k, (∃ e' ∈ addOccurrence m root rec skillPath, e'.1 = k) ↔
      ((∃ e ∈ m, e.1 = k) ∨ k = toLowerStr rec.name) := by
  intro k
  unfold addOccurrence
  dsimp only
  split
  next hmem =>
    constructor
    · rintro ⟨e', he', rfl⟩
      obtain ⟨e, he, hupd⟩ := List.mem_map.mp he'
      by_cases hk : e.1 == toLowerStr rec.name
      · rw [if_pos hk] at hupd
        exact Or.inl ⟨e, he, by rw [← hupd]⟩
      · rw [if_neg hk] at hupd
        exact Or.inl ⟨e, he, by rw [← hupd]⟩
    · intro h
      have hx : ∃ e ∈ m, e.1 = k := by
        rcases h with h | rfl
        · exact h
        · obtain ⟨e, he, hk⟩ := List.any_eq_true.mp hmem
          exact ⟨e, he, by simpa using hk⟩
      obtain ⟨e, he, rfl⟩ := hx
      by_cases hk : e.1 == toLowerStr rec.name
      · exact ⟨_, List.mem_map.mpr ⟨e, he, rfl⟩, by rw [if_pos hk]⟩
      · exact ⟨_, List.mem_map.mpr ⟨e, he, rfl⟩, by rw [if_neg hk]⟩
  next hmem =>
    constructor
    · rintro ⟨e', he', rfl⟩
      rcases List.mem_append.mp he' with h | h
      · exact Or.inl ⟨e', h, rfl⟩
      · rcases List.mem_singleton.mp h with rfl
        exact Or.inr rfl
    · intro h
      rcases h with ⟨e, he, rfl⟩ | rfl
      · exact ⟨e, List.mem_append.mpr (Or.inl he), rfl⟩
      · exact ⟨_, List.mem_append.mpr (Or.inr (List.mem_singleton.mpr rfl)), rfl⟩

/-- After a step, every entry keyed by the new occurrence's key lists the
new occurrence's root. -/
theorem addOcc_new_root (m : List (String × SkillEntryCandidate)) (root : List String)
    (rec : SkillRecord) (skillPath : List String) :
    ∀ e' ∈ addOccurrence m root rec skillPath,
      e'.1 = toLowerStr rec.name → root ∈ e'.2.record.sourceRoots := by
  intro e' he' hk
  unfold addOccurrence at he'
  dsimp only at he'
  split at he'
  next hmem =>
    obtain ⟨e, he, hupd⟩ := List.mem_map.mp he'
    by_cases hke : e.1 == toLowerStr rec.name
    · rw [if_pos hke] at hupd
      rw [← hupd]
      simp
    · rw [if_neg hke] at hupd
      rw [← hupd] at hk
      exact absurd (by simpa using hk) (by simpa using hke)
  next hmem =>
    rcases List.mem_append.mp he' with h | h
    · exfalso
      have hmem2 := List.any_eq_false.mp (Bool.eq_false_iff.mpr hmem)
      exact hmem2 e' h (by simpa using hk)
    · rcases List.mem_singleton.mp h with rfl
      simp

/-- A step only extends sourceRoots of surviving entries; a genuinely new
entry means the key was absent before. -/
theorem addOcc_old_roots (m : List (String × SkillEntryCandidate)) (root : List String)
    (rec : SkillRecord) (skillPath : List String) :
    ∀ e' ∈ addOccurrence m root rec skillPath,
      (∃ e ∈ m, e.1 = e'.1 ∧ ∀ x ∈ e.2.record.sourceRoots, x ∈ e'.2.record.sourceRoots)
      ∨ (e'.1 = toLowerStr rec.name ∧ ∀ e ∈ m, e.1 ≠ toLowerStr rec.name) := by
  intro e' he'
  unfold addOccurrence at he'
  dsimp only at he'
  split at he'
  next hmem =>
    obtain ⟨e, he, hupd⟩ := List.mem_map.mp he'
    by_cases hke : e.1 == toLowerStr rec.name
    · rw [if_pos hke] at hupd
      refine Or.inl ⟨e, he, by rw [← hupd], ?_⟩
      intro x hx
      rw [← hupd]
      simp [hx]
    · rw [if_neg hke] at hupd
      exact Or.inl ⟨e, he, by rw [← hupd], by rw [← hupd]; exact fun x hx => hx⟩
  next hmem =>
    rcases List.mem_append.mp he' with h | h
    · exact Or.inl ⟨e', h, rfl, fun x hx => hx⟩
    · rcases List.mem_singleton.mp h with rfl
      refine Or.inr ⟨rfl, ?_⟩
      have hmem2 := List.any_eq_false.mp (Bool.eq_false_iff.mpr hmem)
      intro e he hk
      exact hmem2 e he (by simpa using hk)

/-- The nested discovery loops of buildSkillMap equal one fold over the
flattened occurrence list. -/
theorem buildSkillMap_eq_fold (yaml : String → Option YamlMap) (fs : FileSys) :
    ∀ (roots : List (List String)) (m0 : List (String × SkillEntryCandidate)),
      roots.foldl
        (fun m root =>
          (collectSkillFilesFromRoot fs root).foldl
            (fun m filePath =>
              addOccurrence m root (loadSkillRecord yaml fs filePath) (dirname filePath))
            m)
        m0
      = (skillOccs fs roots).foldl
          (fun m rf => addOccurrence m rf.1 (loadSkillRecord yaml fs rf.2) (dirname rf.2))
          m0 := by
  intro roots
  induction roots with
  | nil => intro m0; rfl
  | cons r rs ih =>
    intro m0
    rw [List.foldl_cons]
    rw [show skillOccs fs (r :: rs)
        = (collectSkillFilesFromRoot fs r).map (fun f => (r, f)) ++ skillOccs fs rs from
      List.flatMap_cons r rs _]
    rw [List.foldl_append, List.foldl_map]
    exact ih _

/-- buildSkillMap as the flattened fold. -/
theorem buildSkillMap_eq_fold' (yaml : String → Option YamlMap) (fs : FileSys)
    (roots : List (List String)) :
    buildSkillMap yaml fs roots
      = (skillOccs fs roots).foldl
          (fun m rf => addOccurrence m rf.1 (loadSkillRecord yaml fs rf.2) (dirname rf.2))
          [] := by
  unfold buildSkillMap
  exact buildSkillMap_eq_fold yaml fs roots []

/-- The invariant of the merge fold: at most one entry per key, keys are
lower-cased names, the key set is the processed occurrences' key set, and
every entry records the root of every processed occurrence sharing its
key. -/
theorem skillMap_fold_invariant (yaml : String → Option YamlMap) (fs : FileSys) :
    ∀ (occs processed : List (List String × List String))
      (m0 : List (String × SkillEntryCandidate)),
      (∀ k, m0.countP (fun e => e.1 == k) ≤ 1) →
      (∀ e ∈ m0, toLowerStr e.2.record.name = e.1) →
      (∀ k, (∃ rf ∈ processed, occKey yaml fs rf = k) ↔ (∃ e ∈ m0, e.1 = k)) →
      (∀ e ∈ m0, ∀ rf ∈ processed, occKey yaml fs rf = e.1 →
        rf.1 ∈ e.2.record.sourceRoots) →
      ((∀ k, (occs.foldl (fun m rf =>
            addOccurrence m rf.1 (loadSkillRecord yaml fs rf.2) (dirname rf.2)) m0).countP
            (fun e => e.1 == k) ≤ 1)
       ∧ (∀ e ∈ occs.foldl (fun m rf =>
            addOccurrence m rf.1 (loadSkillRecord yaml fs rf.2) (dirname rf.2)) m0,
            toLowerStr e.2.record.name = e.1)
       ∧ (∀ k, (∃ rf ∈ processed ++ occs, occKey yaml fs rf = k) ↔
            (∃ e ∈ occs.foldl (fun m rf =>
              addOccurrence m rf.1 (loadSkillRecord yaml fs rf.2) (dirname rf.2)) m0,
              e.1 = k))
       ∧ (∀ e ∈ occs.foldl (fun m rf =>
            addOccurrence m rf.1 (loadSkillRecord yaml fs rf.2) (dirname rf.2)) m0,
            ∀ rf ∈ processed ++ occs, occKey yaml fs rf = e.1 →
              rf.1 ∈ e.2.record.sourceRoots)) := by
  intro occs
  induction occs with
  | nil =>
    intro processed m0 h1 h2 h3 h4
    simp only [List.foldl_nil, List.append_nil]
    exact ⟨h1, h2, h3, h4⟩
  | cons rf occs ih =>
    intro processed m0 h1 h2 h3 h4
    have hI1 := addOcc_countP_le m0 rf.1 (loadSkillRecord yaml fs rf.2) (dirname rf.2) h1
    have hI2 := addOcc_key_coherent m0 rf.1 (loadSkillRecord yaml fs rf.2) (dirname rf.2) h2
    have hkeys := addOcc_keys m0 rf.1 (loadSkillRecord yaml fs rf.2) (dirname rf.2)
    have hnew := addOcc_new_root m0 rf.1 (loadSkillRecord yaml fs rf.2) (dirname rf.2)
    have hold := addOcc_old_roots m0 rf.1 (loadSkillRecord yaml fs rf.2) (dirname rf.2)
    have hI3 : ∀ k, (∃ rf' ∈ processed ++ [rf], occKey yaml fs rf' = k) ↔
        (∃ e ∈ addOccurrence m0 rf.1 (loadSkillRecord yaml fs rf.2) (dirname rf.2),
          e.1 = k) := by
      intro k
      rw [hkeys k]
      constructor
      · rintro ⟨rf', hrf', hkk⟩
        rcases List.mem_append.mp hrf' with h | h
        · exact Or.inl ((h3 k).mp ⟨rf', h, hkk⟩)
        · rcases List.mem_singleton.mp h with rfl
          exact Or.inr hkk.symm
      · intro h
        rcases h with h | rfl
        · obtain ⟨rf', hrf', hkk⟩ := (h3 k).mpr h
          exact ⟨rf', List.mem_append.mpr (Or.inl hrf'), hkk⟩
        · exact ⟨rf, List.mem_append.mpr (Or.inr (List.mem_singleton.mpr rfl)), rfl⟩
    have hI4 : ∀ e ∈ addOccurrence m0 rf.1 (loadSkillRecord yaml fs rf.2) (dirname rf.2),
        ∀ rf' ∈ processed ++ [rf], occKey yaml fs rf' = e.1 →
          rf'.1 ∈ e.2.record.sourceRoots := by
      intro e' he' rf' hrf' hkey
      rcases List.mem_append.mp hrf' with hmem | hmem
      · rcases hold e' he' with ⟨e, he, hkeq, hsub⟩ | ⟨hknew, habs⟩
        · exact hsub _ (h4 e he rf' hmem (hkey.trans hkeq.symm))
        · exfalso
          obtain ⟨e, he, hek⟩ := (h3 (occKey yaml fs rf')).mp ⟨rf', hmem, rfl⟩
          exact habs e he (by rw [hek, hkey, hknew])
      · rcases List.mem_singleton.mp hmem with rfl
        exact hnew e' he' hkey.symm
    have hrec := ih (processed ++ [rf])
      (addOccurrence m0 rf.1 (loadSkillRecord yaml fs rf.2) (dirname rf.2))
      hI1 hI2 hI3 hI4
    rw [List.foldl_cons]
    have hassoc : processed ++ rf :: occs = (processed ++ [rf]) ++ occs := by
      rw [List.append_assoc]
      rfl
    rw [hassoc]
    exact hrec

/-- listSkills, spelled as the sort of the decorated merge map. -/
theorem listSkills_eq (yaml : String → Option YamlMap) (fs : FileSys)
    (targets : List TargetModel) (extraRoots : List (List String)) :
    listSkills yaml fs targets extraRoots =
      stableSort entryLe ((buildSkillMap yaml fs (scanRoots targets extraRoots)).map
        (fun kv =>
          { id := kv.2.record.id
            name := kv.2.record.name
            description := kv.2.record.description
            path := kv.2.record.path
            sourceRoots := kv.2.record.sourceRoots
            tokens := kv.2.record.tokens
            targets := (stableSort (fun a b => decide (a.priority ≤ b.priority)) targets).map
              (fun t => targetStateFor t kv.2) })) := rfl

/-- C1: whenever some scan root holds a manifest whose parsed name
lower-cases to k — in particular whenever two roots each hold a skill
directory with the same name up to case — listSkills returns EXACTLY ONE
entry whose name lower-cases to k, and that entry's sourceRoots lists
every scan root under which such a manifest was found; merged skills are
never reported twice. -/
theorem listSkills_dedup_by_lowercase_name
    (yaml : String → Option YamlMap) (fs : FileSys) (targets : List TargetModel)
    (extraRoots : List (List String)) (k : String)
    (hk : ∃ r ∈ scanRoots targets extraRoots, ∃ f ∈ collectSkillFilesFromRoot fs r,
        toLowerStr (loadSkillRecord yaml fs f).name = k) :
    (listSkills yaml fs targets extraRoots).countP (fun e => toLowerStr e.name == k) = 1
    ∧ ∀ e ∈ listSkills yaml fs targets extraRoots, toLowerStr e.name = k →
        ∀ r ∈ scanRoots targets extraRoots,
          (∃ f ∈ collectSkillFilesFromRoot fs r,
            toLowerStr (loadSkillRecord yaml fs f).name = k) → r ∈ e.sourceRoots := by
  obtain ⟨r0, hr0, f0, hf0, hk0⟩ := hk
  obtain ⟨hI1, hI2, hI3, hI4⟩ := skillMap_fold_invariant yaml fs
    (skillOccs fs (scanRoots targets extraRoots)) [] []
    (fun k => by simp)
    (fun e he => absurd he (List.not_mem_nil e))
    (fun k => by simp)
    (fun e he => absurd he (List.not_mem_nil e))
  rw [List.nil_append] at hI3 hI4
  rw [← buildSkillMap_eq_fold' yaml fs (scanRoots targets extraRoots)] at hI1 hI2 hI3 hI4
  have hoc : (r0, f0) ∈ skillOccs fs (scanRoots targets extraRoots) :=
    List.mem_flatMap.mpr ⟨r0, hr0, List.mem_map.mpr ⟨f0, hf0, rfl⟩⟩
  have hkey0 : occKey yaml fs (r0, f0) = k := hk0
  rw [listSkills_eq]
  have hperm := stableSort_perm entryLe
    ((buildSkillMap yaml fs (scanRoots targets extraRoots)).map
      (fun kv =>
        ({ id := kv.2.record.id
           name := kv.2.record.name
           description := kv.2.record.description
           path := kv.2.record.path
           sourceRoots := kv.2.record.sourceRoots
           tokens := kv.2.record.tokens
           targets := (stableSort (fun a b => decide (a.priority ≤ b.priority)) targets).map
             (fun t => targetStateFor t kv.2) } : SkillEntry)))
  constructor
  · rw [List.Perm.countP_eq _ hperm, List.countP_map]
    have hc : List.countP
        ((fun e => toLowerStr e.name == k) ∘ (fun kv =>
          ({ id := kv.2.record.id
             name := kv.2.record.name
             description := kv.2.record.description
             path := kv.2.record.path
             sourceRoots := kv.2.record.sourceRoots
             tokens := kv.2.record.tokens
             targets := (stableSort (fun a b => decide (a.priority ≤ b.priority)) targets).map
               (fun t => targetStateFor t kv.2) } : SkillEntry)))
        (buildSkillMap yaml fs (scanRoots targets extraRoots))
        = List.countP (fun e => e.1 == k)
            (buildSkillMap yaml fs (scanRoots targets extraRoots)) := by
      refine List.countP_congr ?_
      intro kv hkv
      have hname := hI2 kv hkv
      constructor
      · intro h
        simpa [← hname] using h
      · intro h
        simpa [← hname] using h
    rw [hc]
    have hle := hI1 k
    have hpos : 0 < (buildSkillMap yaml fs (scanRoots targets extraRoots)).countP
        (fun e => e.1 == k) := by
      rw [List.countP_pos_iff]
      obtain ⟨e, he, hek⟩ := (hI3 k).mp ⟨(r0, f0), hoc, hkey0⟩
      exact ⟨e, he, by simpa using hek⟩
    omega
  · intro e he hek r hr hf
    obtain ⟨kv, hkv, hFe⟩ := List.mem_map.mp (hperm.mem_iff.mp he)
    obtain ⟨f, hfmem, hfkey⟩ := hf
    have hocr : (r, f) ∈ skillOccs fs (scanRoots targets extraRoots) :=
      List.mem_flatMap.mpr ⟨r, hr, List.mem_map.mpr ⟨f, hfmem, rfl⟩⟩
    rw [← hFe] at hek
    have hkvkey : kv.1 = k := by
      rw [← hI2 kv hkv]
      exact hek
    have hroot := hI4 kv hkv (r, f) hocr (by rw [hkvkey]; exact hfkey)
    rw [← hFe]
    exact hroot

/-- C1 (witness): two roots each holding a "Foo" skill folder produce a
single merged entry keyed "foo". -/
theorem listSkills_dedup_by_lowercase_name_witness :
    (∃ r ∈ scanRoots [] [["r1"], ["r2"]],
      ∃ f ∈ collectSkillFilesFromRoot fsTwoRootsEx r,
        toLowerStr (loadSkillRecord yamlNoneOracle fsTwoRootsEx f).name = "foo")
    ∧ (listSkills yamlNoneOracle fsTwoRootsEx [] [["r1"], ["r2"]]).countP
        (fun e => toLowerStr e.name == "foo") = 1
    ∧ ∀ e ∈ listSkills yamlNoneOracle fsTwoRootsEx [] [["r1"], ["r2"]],
        toLowerStr e.name = "foo" →
        ∀ r ∈ scanRoots [] [["r1"], ["r2"]],
          (∃ f ∈ collectSkillFilesFromRoot fsTwoRootsEx r,
            toLowerStr (loadSkillRecord yamlNoneOracle fsTwoRootsEx f).name = "foo") →
          r ∈ e.sourceRoots := by
  have h := listSkills_dedup_by_lowercase_name yamlNoneOracle fsTwoRootsEx []
    [["r1"], ["r2"]] "foo" (by decide)
  exact ⟨by decide, h.1, h.2⟩

end SkillsMgr
